import Mathlib

/-!
Verification of the TextSculptor content-organization pipeline.

This file gives a shallow embedding of the pipeline's core code:

* the in-memory vector store (`src/server/services/openai.ts`,
  `InMemoryVectorStore`: `add` / `remove` / `search` / `cosineSimilarity`);
* the k-means clustering engine (`src/unnamed/part_003`,
  `KMeansClustering.cluster`, `initializeCentroids`, `calculateCentroid`,
  `euclideanDistance`);
* the rule-based local chunker (`src/server/services/graph.ts`,
  `localChunkText`);
* the chunk edit / delete / reorder handlers
  (`PATCH /api/chunks/:id`, `DELETE /api/chunks/:id`,
  `POST /api/chunks/:id/reorder`, and `MemStorage.swapChunkOrder` from
  `src/client/src/pages/home.tsx`).

Modelling conventions:

* JavaScript numbers are modelled as exact rationals `ℚ`; IEEE-754 rounding
  is not modelled.  Square roots (used by `euclideanDistance` and
  `cosineSimilarity`) live in `ℝ`; wherever the source only *compares*
  square roots we compare the (rational) radicands instead, which is
  justified by strict monotonicity of `Real.sqrt` (lemma
  `sqrt_lt_sqrt_iff_of_nonneg` below).
* A JavaScript `Map` is modelled as an association list in insertion order:
  `set` on an existing key replaces the value in place, `delete` removes the
  unique entry, iteration follows the list.
* `Math.random()` is modelled by an injected stream `rand : ℕ → ℚ` of draws
  (each intended to lie in `[0,1)`); all theorems below hold for every
  stream.
* Exceptions (`throw new Error(...)`) are modelled with `Except String`.
-/

namespace TextSculptor

open List

/-! ## Vector arithmetic

`dotProduct`, `normSq` and `sqDist` model the accumulation loops of
`cosineSimilarity` and `euclideanDistance`: the loops run over
`a.length` and read `b[i]`, which is modelled by `List.getD b i 0`; on the
equal-length inputs the source actually feeds them, this is exact. -/

/-- Loop `dotProduct += a[i] * b[i]` of `InMemoryVectorStore.cosineSimilarity`. -/
def dotProduct (a b : List ℚ) : ℚ :=
  ∑ i ∈ Finset.range a.length, a.getD i 0 * b.getD i 0

/-- Loop `normA += a[i] * a[i]` of `InMemoryVectorStore.cosineSimilarity`. -/
def normSq (a : List ℚ) : ℚ :=
  ∑ i ∈ Finset.range a.length, a.getD i 0 * a.getD i 0

/-- Squared Euclidean distance: the `sum` accumulated by
`euclideanDistance` before the final `Math.sqrt`. -/
def sqDist (a b : List ℚ) : ℚ :=
  ∑ i ∈ Finset.range a.length, (a.getD i 0 - b.getD i 0) ^ 2

/-- `euclideanDistance` of both `KMeansClustering` and
`InMemoryVectorStore`: `Math.sqrt(sum)`. -/
noncomputable def euclideanDistance (a b : List ℚ) : ℝ :=
  Real.sqrt (sqDist a b)

/-- The value `InMemoryVectorStore.cosineSimilarity` returns when it does
not throw: after the accumulation loop, `0` if either norm is `0`, else
`dot / (sqrt normA * sqrt normB)`.  The source first throws when
`a.length !== b.length`; that throw is modelled by `cosineSimilarityRep`
below, which `search` goes through, so `cosineSimilarity` itself is only
ever the value on the non-throwing path. -/
noncomputable def cosineSimilarity (a b : List ℚ) : ℝ :=
  if normSq a = 0 ∨ normSq b = 0 then 0
  else (dotProduct a b : ℝ) / (Real.sqrt (normSq a) * Real.sqrt (normSq b))

/-! ## In-memory vector store

`InMemoryVectorStore` from `src/server/services/openai.ts`: a JavaScript
`Map` of `id -> {id, vector, metadata}` in insertion order plus a
`dimension` fixed by the first `add`.

`search` attaches a cosine-similarity score to every stored record, sorts
descending by score (`.sort((a, b) => b.score - a.score)`, a *stable* sort
by the ECMAScript specification) and truncates to `topK`.  The score
`d / (√nA · √nB)` is irrational in general, so the executable embedding
carries the exact pair `rep = (d, nA * nB)` for each record; its real value
is `scoreVal rep = d / √(nA * nB)`, proved equal to `cosineSimilarity`
(`scoreVal_scoreRep`), and `repLe` is a decidable comparison of those real
values (`repLe_iff`).  Any stable sort consistent with the total preorder
`scoreVal · ≤ scoreVal ·` produces the same list, so the insertion sort
`sortByScoreDesc` is extensionally the source's sort. -/

structure VectorData where
  id : String
  vector : List ℚ
  metadata : Option String
deriving DecidableEq, Repr

structure InMemoryVectorStore where
  vectors : List VectorData
  dimension : ℕ
deriving DecidableEq, Repr

/-- A fresh `new InMemoryVectorStore()`. -/
def emptyStore : InMemoryVectorStore := ⟨[], 0⟩

/-- `Map.set`: replace in place if the key exists, else append. -/
def setRec : List VectorData → VectorData → List VectorData
  | [], r => [r]
  | x :: xs, r => if x.id = r.id then r :: xs else x :: setRec xs r

/-- `Map.delete`: remove the (unique) entry with the given key. -/
def eraseRec : List VectorData → String → List VectorData
  | [], _ => []
  | x :: xs, i => if x.id = i then xs else x :: eraseRec xs i

namespace InMemoryVectorStore

/-- `add(id, vector, metadata)`: the first insert fixes the dimension,
later inserts with a different length throw. -/
def add (st : InMemoryVectorStore) (id : String) (vector : List ℚ)
    (metadata : Option String) : Except String InMemoryVectorStore :=
  if st.dimension = 0 then
    .ok ⟨setRec st.vectors ⟨id, vector, metadata⟩, vector.length⟩
  else if vector.length ≠ st.dimension then
    .error "Vector dimension mismatch"
  else
    .ok ⟨setRec st.vectors ⟨id, vector, metadata⟩, st.dimension⟩

/-- `remove(id)`: returns the updated store and whether a record existed. -/
def remove (st : InMemoryVectorStore) (id : String) :
    InMemoryVectorStore × Bool :=
  (⟨eraseRec st.vectors id, st.dimension⟩, st.vectors.any (fun r => r.id == id))

end InMemoryVectorStore

/-- Exact representation of a search score: the pair `(d, m)` stands for
the real number `d / √m`.  `scoreRep a b` represents
`cosineSimilarity a b`; the guard case is represented by `(0, 1)`. -/
def scoreRep (a b : List ℚ) : ℚ × ℚ :=
  if normSq a = 0 ∨ normSq b = 0 then (0, 1)
  else (dotProduct a b, normSq a * normSq b)

/-- Real value of a score representation. -/
noncomputable def scoreVal (p : ℚ × ℚ) : ℝ :=
  (p.1 : ℝ) / Real.sqrt (p.2 : ℝ)

/-- `cosineSimilarity(a, b)` as a fallible computation: the source throws
`"Vectors must have the same length"` when `a.length !== b.length`, and
otherwise returns the number represented exactly by `scoreRep a b`
(`scoreVal_scoreRep` below proves that representation correct). -/
def cosineSimilarityRep (a b : List ℚ) : Except String (ℚ × ℚ) :=
  if a.length ≠ b.length then .error "Vectors must have the same length"
  else .ok (scoreRep a b)

/-- Decidable comparison `scoreVal p ≤ scoreVal q` for representations with
positive second component (see `repLe_iff`). -/
def repLe (p q : ℚ × ℚ) : Bool :=
  if 0 ≤ p.1 then decide (0 ≤ q.1 ∧ p.1 ^ 2 * q.2 ≤ q.1 ^ 2 * p.2)
  else decide (0 ≤ q.1 ∨ q.1 ^ 2 * p.2 ≤ p.1 ^ 2 * q.2)

/-- One result row of `search`: `{id, score, metadata}`, the score carried
as its exact representation. -/
structure SearchResult where
  id : String
  rep : ℚ × ℚ
  metadata : Option String
deriving DecidableEq, Repr

/-- Insert into a descending-sorted list, after all entries with a greater
or equal score (which preserves the stability of the source's sort). -/
def insertScoreDesc (x : SearchResult) : List SearchResult → List SearchResult
  | [] => [x]
  | y :: ys => if repLe x.rep y.rep then y :: insertScoreDesc x ys
               else x :: y :: ys

/-- Stable descending sort by score: the unique stable sort consistent with
`scoreVal`, hence the result of `.sort((a, b) => b.score - a.score)`. -/
def sortByScoreDesc (l : List SearchResult) : List SearchResult :=
  l.foldl (fun acc x => insertScoreDesc x acc) []

/-- The `.map` of `search`, scoring every stored record in order: the
first record whose vector length differs from the query's makes
`cosineSimilarity` throw, aborting the whole search. -/
def mapScores (q : List ℚ) : List VectorData → Except String (List SearchResult)
  | [] => .ok []
  | r :: rest =>
    match cosineSimilarityRep q r.vector with
    | .error e => .error e
    | .ok p =>
      match mapScores q rest with
      | .error e => .error e
      | .ok l => .ok (⟨r.id, p, r.metadata⟩ :: l)

namespace InMemoryVectorStore

/-- `search(queryVector, topK)`: dimension check, score every record
(each scoring can throw on a stored vector of a different length),
stable-sort descending, truncate to `topK`. -/
def search (st : InMemoryVectorStore) (queryVector : List ℚ) (topK : ℕ) :
    Except String (List SearchResult) :=
  if queryVector.length ≠ st.dimension then
    .error "Query vector dimension mismatch"
  else
    match mapScores queryVector st.vectors with
    | .error e => .error e
    | .ok results => .ok ((sortByScoreDesc results).take topK)

end InMemoryVectorStore

/-! ## K-means clustering engine

`KMeansClustering` from `src/unnamed/part_003`.  Every distance
*comparison* of the source (`distance < minDistance` in the assignment
loop, `Math.min` in the seeding loop, followed by squaring) is performed
here on squared distances, which is equivalent by strict monotonicity of
`Real.sqrt` (`euclideanDistance_lt_iff`).  `Math.random()` draws come from
the injected stream `rand`. -/

/-- Map with a running index, starting at `start` (models
`Array.prototype.map`'s `(element, index)` callback). -/
def mapIdxFrom {α β : Type} (f : ℕ → α → β) : ℕ → List α → List β
  | _, [] => []
  | n, x :: xs => f n x :: mapIdxFrom f (n + 1) xs

/-- One output cluster: `{id, title, items, centroid}`. -/
structure ClusterOut where
  id : String
  title : String
  items : List String
  centroid : List ℚ
deriving DecidableEq, Repr

namespace KMeansClustering

/-- `calculateCentroid`: coordinate-wise mean over the first vector's
dimension; `[]` for an empty input. -/
def calculateCentroid (vectors : List (List ℚ)) : List ℚ :=
  match vectors with
  | [] => []
  | p :: _ =>
    (List.range p.length).map
      (fun i => (vectors.map (fun q => q.getD i 0)).sum / (vectors.length : ℚ))

/-- Tail of the assignment loop: carry the best index so far; the carried
`minDistance` always equals the distance of the carried best index, so it
is recomputed instead of stored. -/
def argmin (f : ℕ → ℚ) : List ℕ → ℕ → ℕ
  | [], b => b
  | j :: js, b => if f j < f b then argmin f js j else argmin f js b

/-- Inner loop `for (j = 0; j < k; j++)` of the assignment step:
`minDistance = Infinity; bestCluster = 0`, strict improvement only, so
ties keep the first-encountered centroid. -/
def bestCluster (v : List ℚ) (k : ℕ) (cent : List (List ℚ)) : ℕ :=
  match List.range k with
  | [] => 0
  | j :: js => argmin (fun j0 => sqDist v (cent.getD j0 [])) js j

/-- Assignment step: each point goes to its nearest centroid (index as the
JavaScript number stored in `assignments[i]`). -/
def assignStep (vecs : List (List ℚ)) (k : ℕ) (cent : List (List ℚ)) :
    List ℤ :=
  vecs.map (fun v => Int.ofNat (bestCluster v k cent))

/-- `vectors.filter((_, i) => assignments[i] === j)`. -/
def ptsOf (vecs : List (List ℚ)) (a : List ℤ) (j : ℕ) : List (List ℚ) :=
  ((vecs.zip a).filter (fun p => p.2 == Int.ofNat j)).map Prod.fst

/-- Centroid update: `for (j = 0; j < k; j++)` replace `centroids[j]` by
the mean of its assigned points, leaving it unchanged when no point is
assigned. -/
def updateCentroids (vecs : List (List ℚ)) (k : ℕ) (a : List ℤ)
    (cent : List (List ℚ)) : List (List ℚ) :=
  mapIdxFrom
    (fun j c => if j < k then
      (let pts := ptsOf vecs a j
       if pts.isEmpty then c else calculateCentroid pts)
    else c) 0 cent

/-- The iteration of `cluster`: assign, stop when the assignment vector
repeats, else update centroids and recurse; `fuel` is the remaining
iteration budget out of `maxIterations = 100`. -/
def kmeansLoop (vecs : List (List ℚ)) (k : ℕ) :
    ℕ → List ℤ → List (List ℚ) → List ℤ × List (List ℚ)
  | 0, prev, cent => (prev, cent)
  | fuel + 1, prev, cent =>
    let a := assignStep vecs k cent
    if a = prev then (a, cent)
    else kmeansLoop vecs k fuel a (updateCentroids vecs k a cent)

/-- Squared distance to the nearest of the existing centroids
(`Math.min` over `euclideanDistance`, then squared: equal to the minimum
of the squared distances). -/
def minSqDistTo (cents : List (List ℚ)) (v : List ℚ) : ℚ :=
  match cents.map (fun c => sqDist v c) with
  | [] => 0
  | d :: ds => ds.foldl min d

/-- Weighted-selection scan of `initializeCentroids`: walk the indices,
skip used ones, decrement the remaining random mass, select on reaching
zero; `selectedIndex` stays `0` when the scan never triggers. -/
def pickLoop (dists : List ℚ) (used : List ℕ) :
    List ℕ → ℚ → ℕ → ℕ
  | [], _, sel => sel
  | j :: js, rv, sel =>
    if j ∈ used then pickLoop dists used js rv sel
    else
      let rv2 := rv - dists.getD j 0
      if rv2 ≤ 0 then j else pickLoop dists used js rv2 sel

/-- The k-means++ seeding `initializeCentroids`: first centroid at index
`Math.floor(Math.random() * n)`, each further centroid drawn with
probability proportional to the squared distance to the nearest chosen
centroid. -/
def initCentroids (vectors : List (String × List ℚ)) (k : ℕ)
    (rand : ℕ → ℚ) : List (List ℚ) :=
  let n := vectors.length
  let firstIndex := (⌊rand 0 * (n : ℚ)⌋).toNat
  ((List.range (k - 1)).foldl
    (fun (st : List (List ℚ) × List ℕ) i0 =>
      let i := i0 + 1
      let dists := (List.range n).map
        (fun j => if j ∈ st.2 then 0
          else minSqDistTo st.1 (vectors.getD j ("", [])).2)
      let total := dists.sum
      let rv := rand i * total
      let sel := pickLoop dists st.2 (List.range n) rv 0
      (st.1 ++ [(vectors.getD sel ("", [])).2], st.2 ++ [sel]))
    ([(vectors.getD firstIndex ("", [])).2], [firstIndex])).1

/-- Result construction: one cluster per partition index `j < k`, emitted
only when non-empty. -/
def buildClusters (vectors : List (String × List ℚ)) (k : ℕ) (a : List ℤ)
    (cent : List (List ℚ)) : List ClusterOut :=
  (List.range k).filterMap (fun j =>
    let items := ((vectors.zip a).filter (fun p => p.2 == Int.ofNat j)).map
      (fun p => p.1.1)
    if items.isEmpty then none
    else some ⟨"cluster_" ++ toString j, "Group " ++ toString (j + 1),
      items, cent.getD j []⟩)

/-- `KMeansClustering.cluster(vectors, k)`: empty input gives no clusters,
`count <= k` gives singleton clusters, otherwise seeded iteration with
`maxIterations = 100` from `prevAssignments = fill(-1)`. -/
def cluster (vectors : List (String × List ℚ)) (k : ℕ) (rand : ℕ → ℚ) :
    List ClusterOut :=
  if vectors.length = 0 then []
  else if vectors.length ≤ k then
    mapIdxFrom (fun i v => ⟨"cluster_" ++ toString i,
      "Group " ++ toString (i + 1), [v.1], v.2⟩) 0 vectors
  else
    let cent0 := initCentroids vectors k rand
    let r := kmeansLoop (vectors.map Prod.snd) k 100
      (List.replicate vectors.length (-1)) cent0
    buildClusters vectors k r.1 r.2

/-- Total within-cluster squared Euclidean distance of an assignment
against a list of centroids. -/
def cost (vecs : List (List ℚ)) (a : List ℤ) (cent : List (List ℚ)) : ℚ :=
  ((vecs.zip a).map (fun p => sqDist p.1 (cent.getD p.2.toNat []))).sum

end KMeansClustering

/-! ## Rule-based local chunker

`localChunkText` from `src/server/services/graph.ts`, working on character
lists.  The two regular expressions it uses are modelled directly:
`/\n\s*\n/` (paragraph separators) by `splitParas` and `/[^.!?]+[.!?]+/g`
(sentence matches) by `sentenceMatches`. -/

/-- The regex class `\s` on the characters the repository feeds it. -/
def isWs (c : Char) : Bool := c.isWhitespace

/-- JavaScript `String.prototype.trim`. -/
def trimL (l : List Char) : List Char :=
  ((l.dropWhile isWs).reverse.dropWhile isWs).reverse

/-- Splitting on `/\n\s*\n/`: a separator match starts at a newline and,
because `\s*` is greedy with one backtracking step to leave a final `\n`,
extends through the following whitespace run up to its last newline.
The `fuel` argument only drives structural recursion; every step consumes
at least one character, so `fuel = cs.length` (as passed by
`splitParas`) never runs out. -/
def splitParasF : ℕ → List Char → List Char → List (List Char)
  | _, [], acc => [acc]
  | 0, _, acc => [acc]
  | fuel + 1, c :: rest, acc =>
    if c = '\n' then
      let ws := rest.takeWhile isWs
      if '\n' ∈ ws then
        let cut := ws.length - ws.reverse.findIdx (fun d => d == '\n')
        acc :: splitParasF fuel (rest.drop cut) []
      else
        splitParasF fuel rest (acc ++ [c])
    else
      splitParasF fuel rest (acc ++ [c])

/-- `text.split(/\n\s*\n/)`. -/
def splitParas (cs : List Char) (acc : List Char) : List (List Char) :=
  splitParasF cs.length cs acc

/-- The regex class `[.!?]` of sentence terminators. -/
def isTerm (c : Char) : Bool := c == '.' || c == '!' || c == '?'

/-- Global matches of `/[^.!?]+[.!?]+/g`: skip unmatchable leading
terminators; the head of the remainder is then a non-terminator (by the
`dropWhile` contract), so the `[^.!?]+` run is it plus the following
non-terminator run, and the match requires and takes the following
terminator run.  A trailing terminator-free remainder yields no match.
As in `splitParasF`, `fuel = cs.length` drives structural recursion and
never runs out. -/
def sentenceMatchesF : ℕ → List Char → List (List Char)
  | 0, _ => []
  | fuel + 1, cs =>
    match cs.dropWhile isTerm with
    | [] => []
    | c :: rest1 =>
      let nonT := c :: rest1.takeWhile (fun d => !isTerm d)
      let rest2 := rest1.dropWhile (fun d => !isTerm d)
      match rest2 with
      | [] => []
      | _ :: _ =>
        let terms := rest2.takeWhile isTerm
        (nonT ++ terms) :: sentenceMatchesF fuel (rest2.drop terms.length)

/-- `text.match(/[^.!?]+[.!?]+/g)` (with `null` as `[]`). -/
def sentenceMatches (cs : List Char) : List (List Char) :=
  sentenceMatchesF cs.length cs

/-- The `{title, content}` rows produced by the chunkers. -/
structure TextChunk where
  title : String
  content : String
deriving DecidableEq, Repr

/-- The paragraph-accumulation loop of `localChunkText` plus its final
flush: close the current chunk (trimmed, however empty it is) as soon as
the next paragraph would push it past 1000 characters; after the loop,
push the trimmed remainder only when non-empty. -/
def localChunksAccum : List (List Char) → List Char → List (List Char)
  | [], cur => if (trimL cur).isEmpty then [] else [trimL cur]
  | p :: ps, cur =>
    if 1000 < cur.length + p.length then
      trimL cur :: localChunksAccum ps (p ++ ['\n', '\n'])
    else
      localChunksAccum ps (cur ++ p ++ ['\n', '\n'])

/-- `localChunkText(text)`: split into paragraphs (dropping
whitespace-only pieces), accumulate into roughly 1000-character chunks;
when that yields no chunks and the text is non-empty, fall back to
sentence matches (or the whole text when there is no sentence match),
trimmed; finally retitle every chunk `Chunk (i+1)`. -/
def localChunkText (text : String) : List TextChunk :=
  let tl := text.data
  let paragraphs := (splitParas tl []).filter (fun p => !(trimL p).isEmpty)
  let contents := localChunksAccum paragraphs []
  let contents2 :=
    if contents.isEmpty ∧ 0 < tl.length then
      let ss := sentenceMatches tl
      (if ss.isEmpty then [tl] else ss).map trimL
    else contents
  mapIdxFrom (fun i c => ⟨"Chunk " ++ toString (i + 1), String.mk c⟩) 0 contents2

/-! ## Persistence and the chunk handlers

`MemStorage` (from the storage module concatenated into
`src/client/src/pages/home.tsx`) keeps JavaScript `Map`s of records keyed
by id; the HTTP handlers in `src/server/services/graph.ts` orchestrate it
together with the collection-keyed vector store.  Timestamps
(`createdAt` / `updatedAt`) carry no information any claim depends on and
are omitted from the record types. -/

/-- A stored chunk row (persistent fields the handlers read and write). -/
structure Chunk where
  id : String
  sectionId : String
  order : ℤ
  content : String
  embedding : Option (List ℚ)
  wordCount : ℕ
  isEmbedded : Bool
deriving DecidableEq, Repr

/-- A stored section row. -/
structure SectionRec where
  id : String
  chapterId : String
deriving DecidableEq, Repr

/-- A stored chapter row. -/
structure ChapterRec where
  id : String
  bookId : String
deriving DecidableEq, Repr

/-- A stored book row (`embeddingType` selects the collection). -/
structure Book where
  id : String
  embeddingType : String
deriving DecidableEq, Repr

/-- Maximal-whitespace-run count of a string; `s.split(/\s+/).length`
is one more than it (the split yields one extra piece around each run,
including empty edge pieces). -/
def wsRuns : List Char → Bool → ℕ
  | [], _ => 0
  | c :: rest, inRun =>
    if isWs c then (if inRun then 0 else 1) + wsRuns rest true
    else wsRuns rest false

/-- `updates.content.split(/\s+/).length` as computed by the handlers. -/
def wordCountJs (s : String) : ℕ := 1 + wsRuns s.data false

/-! The `vectorStore` the handlers call is the multi-collection
`ChromaVectorStore` of `src/server/services/local-ai.ts` (second
segment): a thin wrapper over an external ChromaDB server.  The
`chromadb` client is a third-party library, so the server state it hides
is modelled here as named collections of records, with `collection.add`
appending a record, `collection.delete({ ids: [id] })` removing every
record with that id, and `collection.query` (the collections are created
with `hnsw:space: "cosine"`) ranking the stored records by cosine
distance.  An external chroma call can fail; `remove` wraps exactly one
such call in its `try/catch`, so that call's outcome is passed in as an
explicit parameter (like the `rand` stream of the clustering engine).  A
`getOrCreateCollection` failure is rethrown by `getCollection` and
reaches the route's `catch` before any write, so it is not modelled as a
separate path. -/

/-- One record of a ChromaDB collection: the `ids` / `embeddings` /
`metadatas` / `documents` entries passed to `collection.add`. -/
structure ChromaRecord where
  id : String
  embedding : List ℚ
  metadata : Option String
  document : String
deriving DecidableEq, Repr

/-- The ChromaDB server state: named collections in creation order. -/
@[reducible] def ChromaDB : Type := List (String × List ChromaRecord)

/-- `getCollection(collectionName)`: reuse an existing collection,
`getOrCreateCollection` a missing one (created empty). -/
def getOrCreateCollection (db : ChromaDB) (name : String) : ChromaDB :=
  match List.lookup name (db : List (String × List ChromaRecord)) with
  | some _ => db
  | none => (db : List (String × List ChromaRecord)) ++ [(name, [])]

/-- The records of a named collection (empty when absent). -/
def chromaRecords (db : ChromaDB) (name : String) : List ChromaRecord :=
  (List.lookup name (db : List (String × List ChromaRecord))).getD []

/-- Replace a named collection's records in place (append if absent). -/
def setChromaRecords : ChromaDB → String → List ChromaRecord → ChromaDB
  | [], name, recs => [(name, recs)]
  | kv :: rest, name, recs =>
    if kv.1 = name then (name, recs) :: rest
    else kv :: setChromaRecords rest name recs

namespace ChromaVectorStore

/-- `add(collectionName, id, vector, metadata)`: `getCollection`, then
`collection.add` appends the record, its `documents` entry being
`metadata?.content || ''`.  (A failing `collection.add` would propagate
to the calling route's `catch`; no claim exercises that path.) -/
def add (db : ChromaDB) (name id : String) (v : List ℚ)
    (m : Option String) : ChromaDB :=
  let db1 := getOrCreateCollection db name
  setChromaRecords db1 name (chromaRecords db1 name ++ [⟨id, v, m, m.getD ""⟩])

/-- `remove(collectionName, id)`: `getCollection`, then
`collection.delete({ ids: [id] })` inside `try/catch` — when the external
delete call fails the error is logged and surfaced *only* as the returned
`false`, with the records untouched.  `deleteOutcome` is the outcome of
that external call (`true`: the server performed the deletion). -/
def remove (db : ChromaDB) (name id : String) (deleteOutcome : Bool) :
    ChromaDB × Bool :=
  let db1 := getOrCreateCollection db name
  if deleteOutcome then
    (setChromaRecords db1 name
      ((chromaRecords db1 name).filter (fun r => r.id != id)), true)
  else (db1, false)

/-- `search(collectionName, queryVector, topK)`: `collection.query`
returns the `topK` stored records nearest in cosine distance (the stable
descending sort by cosine similarity, distance being `1 - similarity`);
each hit's `score` is mapped back as `1 - distance`, i.e. exactly the
cosine similarity, carried in exact representation.  A query does not
modify an existing collection. -/
def search (db : ChromaDB) (name : String) (q : List ℚ) (topK : ℕ) :
    List SearchResult :=
  (sortByScoreDesc ((chromaRecords (getOrCreateCollection db name) name).map
    (fun r => ⟨r.id, scoreRep q r.embedding, r.metadata⟩))).take topK

end ChromaVectorStore

/-- The whole mutable state the chunk handlers touch. -/
structure SysState where
  chunks : List (String × Chunk)
  sections : List (String × SectionRec)
  chapters : List (String × ChapterRec)
  books : List (String × Book)
  vectorStore : ChromaDB

/-- The collection name `collection_(embeddingType)` used by the handlers. -/
def collectionName (b : Book) : String := "collection_" ++ b.embeddingType

/-- `storage.getBookFromChunk(chunkId)`.

Modelled from the spec: the storage method is called by the handlers in
`src/` but its body is not under `src/`; per the spec's data model the
chunk's owning book is found through `sectionId`, the section's
`chapterId` and the chapter's `bookId`. -/
def getBookFromChunk (s : SysState) (cid : String) : Option Book := do
  let ch ← List.lookup cid s.chunks
  let sec ← List.lookup ch.sectionId s.sections
  let chap ← List.lookup sec.chapterId s.chapters
  List.lookup chap.bookId s.books

/-- `storage.updateChunk(id, updates)` restricted to the fields the
handlers pass: replace the record at the key in place. -/
def updateChunkRec (chunks : List (String × Chunk)) (cid : String)
    (f : Chunk → Chunk) : List (String × Chunk) :=
  chunks.map (fun p => if p.1 = cid then (p.1, f p.2) else p)

/-- `storage.deleteChunk(id)`. -/
def deleteChunkRec : List (String × Chunk) → String → List (String × Chunk)
  | [], _ => []
  | kv :: rest, cid =>
    if kv.1 = cid then rest else kv :: deleteChunkRec rest cid

/-- `PATCH /api/chunks/:id` with a `content` update.  The outcome of the
embedding provider call (`generateEmbedding`) is passed in as
`embedResult`; a provider failure is the thrown exception the route's
`catch` turns into a 500 response.  The state is threaded explicitly so
that the theorems can observe exactly which prefix of the handler ran. -/
def patchChunkHandler (s : SysState) (cid : String) (newContent : String)
    (embedResult : Except String (List ℚ)) : Except String Chunk × SysState :=
  match List.lookup cid s.chunks with
  | none => (.error "Chunk not found", s)
  | some chunk =>
    -- JavaScript truthiness: `updates.content && updates.content !== chunk.content`
    if newContent ≠ "" ∧ newContent ≠ chunk.content then
      match getBookFromChunk s cid with
      | none => (.error "Book not found for this chunk", s)
      | some book =>
        match embedResult with
        | .error e => (.error e, s)
        | .ok emb =>
          let s2 : SysState := { s with
            vectorStore := ChromaVectorStore.add s.vectorStore
              (collectionName book) cid emb (some newContent)
            chunks := updateChunkRec s.chunks cid (fun c =>
              { c with
                content := newContent
                embedding := some emb
                wordCount := wordCountJs newContent
                isEmbedded := true }) }
          match List.lookup cid s2.chunks with
          | some c => (.ok c, s2)
          | none => (.error "Chunk not found", s2)
    else
      let s2 : SysState := { s with
        chunks := updateChunkRec s.chunks cid (fun c =>
          { c with content := newContent }) }
      match List.lookup cid s2.chunks with
      | some c => (.ok c, s2)
      | none => (.error "Chunk not found", s2)

/-- `DELETE /api/chunks/:id`: 404 when the chunk is missing; when the
owning book resolves, `await vectorStore.remove(collectionName, id)` —
whose boolean result the handler discards — then delete the chunk row
and answer `"Chunk deleted successfully"`.  `deleteOutcome` is the
outcome of the external chroma delete call inside `remove`. -/
def deleteChunkHandler (s : SysState) (cid : String) (deleteOutcome : Bool) :
    Except String String × SysState :=
  match List.lookup cid s.chunks with
  | none => (.error "Chunk not found", s)
  | some _ =>
    let s1 : SysState :=
      match getBookFromChunk s cid with
      | some book =>
        { s with vectorStore := (ChromaVectorStore.remove s.vectorStore
            (collectionName book) cid deleteOutcome).1 }
      | none => s
    let s2 : SysState := { s1 with chunks := deleteChunkRec s1.chunks cid }
    (.ok "Chunk deleted successfully", s2)

/-- The reorder direction, already validated by the route
(`direction !== 'up' && direction !== 'down'` is a 400). -/
inductive Direction where
  | up
  | down
deriving DecidableEq, Repr

/-- Stable ascending insertion by `order`: the stable sort of
`.sort((a, b) => a.order - b.order)` in `getChunksBySectionId`. -/
def insertByOrder (x : Chunk) : List Chunk → List Chunk
  | [] => [x]
  | y :: ys => if x.order < y.order then x :: y :: ys
               else y :: insertByOrder x ys

/-- `getChunksBySectionId`: the section's chunks in insertion order,
stable-sorted by `order`. -/
def getChunksBySectionId (chunks : List (String × Chunk)) (sec : String) :
    List Chunk :=
  ((chunks.map Prod.snd).filter (fun c => c.sectionId == sec)).foldl
    (fun acc x => insertByOrder x acc) []

/-- `MemStorage.swapChunkOrder(chunkId, direction)`: locate the chunk
among its sorted siblings; out-of-range swap target is a silent no-op;
otherwise the two `order` fields are exchanged via two `updateChunk`
calls. -/
def swapChunkOrder (chunks : List (String × Chunk)) (cid : String)
    (dir : Direction) : Except String (List (String × Chunk)) :=
  match List.lookup cid chunks with
  | none => .error "Chunk not found"
  | some chunk =>
    let siblings := getChunksBySectionId chunks chunk.sectionId
    let ci := siblings.findIdx (fun c => c.id == cid)
    if ci = siblings.length then .error "Chunk not found in its section"
    else
      let swapIdx : ℤ := match dir with
        | .up => (ci : ℤ) - 1
        | .down => (ci : ℤ) + 1
      if swapIdx < 0 ∨ (siblings.length : ℤ) ≤ swapIdx then .ok chunks
      else
        let other := siblings.getD swapIdx.toNat chunk
        .ok (updateChunkRec
          (updateChunkRec chunks cid (fun c => { c with order := other.order }))
          other.id (fun c => { c with order := chunk.order }))

/-! ## Lemmas and theorems -/

theorem normSq_nonneg (a : List ℚ) : 0 ≤ normSq a := by
  unfold normSq
  exact Finset.sum_nonneg fun i _ => mul_self_nonneg _

theorem sqDist_nonneg (a b : List ℚ) : 0 ≤ sqDist a b := by
  unfold sqDist
  exact Finset.sum_nonneg fun i _ => sq_nonneg _

/-- Comparing square roots of nonnegative rationals is comparing the
radicands: this justifies replacing `euclideanDistance` comparisons by
`sqDist` comparisons in the executable definitions below. -/
theorem sqrt_lt_sqrt_iff_of_nonneg {x y : ℚ} (hx : 0 ≤ x) :
    Real.sqrt x < Real.sqrt y ↔ x < y := by
  rw [Real.sqrt_lt_sqrt_iff (by exact_mod_cast hx)]
  exact_mod_cast Iff.rfl

/-- Same-radicand comparison for `euclideanDistance`. -/
theorem euclideanDistance_lt_iff (a b c d : List ℚ) :
    euclideanDistance a b < euclideanDistance c d ↔ sqDist a b < sqDist c d := by
  unfold euclideanDistance
  exact sqrt_lt_sqrt_iff_of_nonneg (sqDist_nonneg a b)


/-! ### Score representations compute the source's scores -/

theorem scoreRep_snd_pos (a b : List ℚ) : 0 < (scoreRep a b).2 := by
  unfold scoreRep
  by_cases h : normSq a = 0 ∨ normSq b = 0
  · rw [if_pos h]
    norm_num
  · push_neg at h
    rw [if_neg (show ¬(normSq a = 0 ∨ normSq b = 0) by tauto)]
    exact mul_pos (lt_of_le_of_ne (normSq_nonneg a) (Ne.symm h.1))
      (lt_of_le_of_ne (normSq_nonneg b) (Ne.symm h.2))

/-- The exact representation evaluates to the score the source computes. -/
theorem scoreVal_scoreRep (a b : List ℚ) :
    scoreVal (scoreRep a b) = cosineSimilarity a b := by
  unfold scoreVal scoreRep cosineSimilarity
  by_cases h : normSq a = 0 ∨ normSq b = 0
  · rw [if_pos h, if_pos h]
    norm_num
  · push_neg at h
    rw [if_neg (show ¬(normSq a = 0 ∨ normSq b = 0) by tauto),
      if_neg (show ¬(normSq a = 0 ∨ normSq b = 0) by tauto)]
    have hA : (0 : ℝ) ≤ (normSq a : ℝ) := by exact_mod_cast normSq_nonneg a
    rw [show ((normSq a * normSq b : ℚ) : ℝ) = (normSq a : ℝ) * (normSq b : ℝ) by
      push_cast; ring]
    rw [Real.sqrt_mul hA]

/-- Comparison of two score values, reduced to a sign analysis plus a
comparison of squares; this is the key fact making the sort executable. -/
theorem repLe_iff {p q : ℚ × ℚ} (hp : 0 < p.2) (hq : 0 < q.2) :
    repLe p q = true ↔ scoreVal p ≤ scoreVal q := by
  have hpR : (0 : ℝ) < (p.2 : ℝ) := by exact_mod_cast hp
  have hqR : (0 : ℝ) < (q.2 : ℝ) := by exact_mod_cast hq
  have hsp : (0 : ℝ) < Real.sqrt (p.2 : ℝ) := Real.sqrt_pos.mpr hpR
  have hsq : (0 : ℝ) < Real.sqrt (q.2 : ℝ) := Real.sqrt_pos.mpr hqR
  have hdiv : scoreVal p ≤ scoreVal q ↔
      (p.1 : ℝ) * Real.sqrt (q.2 : ℝ) ≤ (q.1 : ℝ) * Real.sqrt (p.2 : ℝ) := by
    unfold scoreVal
    exact div_le_div_iff₀ hsp hsq
  rw [hdiv]
  unfold repLe
  by_cases hx : (0 : ℚ) ≤ p.1
  · have hxR : (0 : ℝ) ≤ (p.1 : ℝ) := by exact_mod_cast hx
    simp only [if_pos hx, decide_eq_true_eq]
    constructor
    · rintro ⟨hy, hsqle⟩
      have hyR : (0 : ℝ) ≤ (q.1 : ℝ) := by exact_mod_cast hy
      have h1 : (p.1 : ℝ) * Real.sqrt (q.2 : ℝ) =
          Real.sqrt ((p.1 : ℝ) ^ 2 * (q.2 : ℝ)) := by
        rw [Real.sqrt_mul (sq_nonneg _), Real.sqrt_sq hxR]
      have h2 : (q.1 : ℝ) * Real.sqrt (p.2 : ℝ) =
          Real.sqrt ((q.1 : ℝ) ^ 2 * (p.2 : ℝ)) := by
        rw [Real.sqrt_mul (sq_nonneg _), Real.sqrt_sq hyR]
      rw [h1, h2]
      apply Real.sqrt_le_sqrt
      exact_mod_cast hsqle
    · intro hle
      have hy : (0 : ℚ) ≤ q.1 := by
        by_contra hneg
        push_neg at hneg
        have hyR : (q.1 : ℝ) < 0 := by exact_mod_cast hneg
        nlinarith
      refine ⟨hy, ?_⟩
      have hyR : (0 : ℝ) ≤ (q.1 : ℝ) := by exact_mod_cast hy
      have : ((p.1 : ℝ) * Real.sqrt (q.2 : ℝ)) ^ 2 ≤
          ((q.1 : ℝ) * Real.sqrt (p.2 : ℝ)) ^ 2 := by
        apply pow_le_pow_left₀ (by positivity) hle
      rw [mul_pow, mul_pow, Real.sq_sqrt hqR.le, Real.sq_sqrt hpR.le] at this
      exact_mod_cast this
  · push_neg at hx
    have hxR : (p.1 : ℝ) < 0 := by exact_mod_cast hx
    simp only [if_neg (not_le.mpr hx), decide_eq_true_eq]
    constructor
    · rintro (hy | hsqle)
      · have hyR : (0 : ℝ) ≤ (q.1 : ℝ) := by exact_mod_cast hy
        nlinarith
      · have h1 : -((p.1 : ℝ) * Real.sqrt (q.2 : ℝ)) =
            Real.sqrt ((p.1 : ℝ) ^ 2 * (q.2 : ℝ)) := by
          rw [Real.sqrt_mul (sq_nonneg _), Real.sqrt_sq_eq_abs,
            abs_of_neg hxR]
          ring
        by_cases hy : (0 : ℚ) ≤ q.1
        · have hyR : (0 : ℝ) ≤ (q.1 : ℝ) := by exact_mod_cast hy
          nlinarith
        · push_neg at hy
          have hyR : (q.1 : ℝ) < 0 := by exact_mod_cast hy
          have h2 : -((q.1 : ℝ) * Real.sqrt (p.2 : ℝ)) =
              Real.sqrt ((q.1 : ℝ) ^ 2 * (p.2 : ℝ)) := by
            rw [Real.sqrt_mul (sq_nonneg _), Real.sqrt_sq_eq_abs,
              abs_of_neg hyR]
            ring
          have hmono : Real.sqrt ((q.1 : ℝ) ^ 2 * (p.2 : ℝ)) ≤
              Real.sqrt ((p.1 : ℝ) ^ 2 * (q.2 : ℝ)) := by
            apply Real.sqrt_le_sqrt
            exact_mod_cast hsqle
          rw [← h1, ← h2] at hmono
          linarith
    · intro hle
      by_cases hy : (0 : ℚ) ≤ q.1
      · exact Or.inl hy
      · push_neg at hy
        have hyR : (q.1 : ℝ) < 0 := by exact_mod_cast hy
        refine Or.inr ?_
        have : ((q.1 : ℝ) * Real.sqrt (p.2 : ℝ)) ^ 2 ≤
            ((p.1 : ℝ) * Real.sqrt (q.2 : ℝ)) ^ 2 := by
          have h1 : (0 : ℝ) ≤ -((q.1 : ℝ) * Real.sqrt (p.2 : ℝ)) := by nlinarith
          have h2 : -((q.1 : ℝ) * Real.sqrt (p.2 : ℝ)) ≤
              -((p.1 : ℝ) * Real.sqrt (q.2 : ℝ)) := by linarith
          have := pow_le_pow_left₀ h1 h2 2
          simpa [neg_pow] using this
        rw [mul_pow, mul_pow, Real.sq_sqrt hqR.le, Real.sq_sqrt hpR.le] at this
        exact_mod_cast this

/-- Totality: when `repLe p q` is false the scores compare strictly the
other way. -/
theorem scoreVal_lt_of_not_repLe {p q : ℚ × ℚ} (hp : 0 < p.2) (hq : 0 < q.2)
    (h : repLe p q = false) : scoreVal q < scoreVal p := by
  by_contra hle
  push_neg at hle
  rw [← repLe_iff hp hq] at hle
  rw [h] at hle
  cases hle

/-! ### The sort of `search` -/

/-- Descending score order between result rows. -/
def ScoreGE (a b : SearchResult) : Prop := scoreVal b.rep ≤ scoreVal a.rep

theorem insertScoreDesc_perm (x : SearchResult) (l : List SearchResult) :
    insertScoreDesc x l ~ x :: l := by
  induction l with
  | nil => rfl
  | cons y ys ih =>
    unfold insertScoreDesc
    by_cases h : repLe x.rep y.rep
    · rw [if_pos h]
      calc y :: insertScoreDesc x ys ~ y :: x :: ys := (ih).cons y
        _ ~ x :: y :: ys := List.Perm.swap x y ys
    · rw [if_neg h]

theorem sortByScoreDesc_perm (l : List SearchResult) :
    sortByScoreDesc l ~ l := by
  have key : ∀ (l acc : List SearchResult),
      (l.foldl (fun a x => insertScoreDesc x a) acc) ~ acc ++ l := by
    intro l
    induction l with
    | nil => intro acc; simp
    | cons x xs ih =>
      intro acc
      calc (xs.foldl (fun a x => insertScoreDesc x a) (insertScoreDesc x acc))
          ~ insertScoreDesc x acc ++ xs := ih _
        _ ~ (x :: acc) ++ xs := (insertScoreDesc_perm x acc).append_right xs
        _ ~ acc ++ x :: xs := List.perm_middle.symm
  simpa using key l []

theorem insertScoreDesc_pairwise {x : SearchResult} {l : List SearchResult}
    (hx : 0 < x.rep.2) (hl : ∀ y ∈ l, 0 < y.rep.2)
    (h : l.Pairwise ScoreGE) : (insertScoreDesc x l).Pairwise ScoreGE := by
  induction l with
  | nil => simp [insertScoreDesc, List.pairwise_cons]
  | cons y ys ih =>
    rw [List.pairwise_cons] at h
    unfold insertScoreDesc
    by_cases hle : repLe x.rep y.rep
    · rw [if_pos hle]
      rw [List.pairwise_cons]
      constructor
      · intro z hz
        have hz' : z ∈ x :: ys := (insertScoreDesc_perm x ys).mem_iff.mp hz
        rcases List.mem_cons.mp hz' with rfl | hmem
        · exact (repLe_iff hx (hl y (by simp))).mp hle
        · exact h.1 z hmem
      · exact ih (fun z hz => hl z (List.mem_cons_of_mem y hz)) h.2
    · rw [if_neg hle]
      rw [List.pairwise_cons]
      constructor
      · intro z hz
        have hyx : scoreVal y.rep < scoreVal x.rep :=
          scoreVal_lt_of_not_repLe hx (hl y (by simp))
            (Bool.not_eq_true _ ▸ eq_false_of_ne_true hle)
        rcases List.mem_cons.mp hz with rfl | hmem
        · exact le_of_lt hyx
        · exact le_trans (h.1 z hmem) (le_of_lt hyx)
      · rw [List.pairwise_cons]
        exact ⟨h.1, h.2⟩

theorem sortByScoreDesc_pairwise {l : List SearchResult}
    (hl : ∀ y ∈ l, 0 < y.rep.2) : (sortByScoreDesc l).Pairwise ScoreGE := by
  have key : ∀ (l acc : List SearchResult), (∀ y ∈ l, 0 < y.rep.2) →
      (∀ y ∈ acc, 0 < y.rep.2) → acc.Pairwise ScoreGE →
      (l.foldl (fun a x => insertScoreDesc x a) acc).Pairwise ScoreGE := by
    intro l
    induction l with
    | nil => intro acc _ _ hp; exact hp
    | cons x xs ih =>
      intro acc hlp hap hp
      apply ih
      · intro y hy; exact hlp y (List.mem_cons_of_mem x hy)
      · intro y hy
        have : y ∈ x :: acc := (insertScoreDesc_perm x acc).mem_iff.mp hy
        rcases List.mem_cons.mp this with rfl | hmem
        · exact hlp y (by simp)
        · exact hap y hmem
      · exact insertScoreDesc_pairwise (hlp x (by simp)) hap hp
  exact key l [] hl (by simp) (by simp)

/-- If one element strictly dominates every other element of the list, it
is the head of the descending sort. -/
theorem sortByScoreDesc_head {l : List SearchResult} {x : SearchResult}
    (hx : x ∈ l) (hpos : ∀ y ∈ l, 0 < y.rep.2)
    (hmax : ∀ y ∈ l, y ≠ x → scoreVal y.rep < scoreVal x.rep) :
    ∃ t, sortByScoreDesc l = x :: t := by
  have hperm := sortByScoreDesc_perm l
  have hpair := sortByScoreDesc_pairwise hpos
  have hxs : x ∈ sortByScoreDesc l := hperm.mem_iff.mpr hx
  rcases hs : sortByScoreDesc l with _ | ⟨h, t⟩
  · rw [hs] at hxs; cases hxs
  · rw [hs] at hxs hpair hperm
    by_cases hhx : h = x
    · exact ⟨t, by rw [hhx]⟩
    · exfalso
      have hhl : h ∈ l := hperm.mem_iff.mp (by simp)
      have h1 : scoreVal h.rep < scoreVal x.rep := hmax h hhl hhx
      have hxt : x ∈ t := by
        rcases List.mem_cons.mp hxs with rfl | hm
        · exact absurd rfl hhx
        · exact hm
      rw [List.pairwise_cons] at hpair
      have h2 : scoreVal x.rep ≤ scoreVal h.rep := hpair.1 x hxt
      linarith

/-- When every stored vector has the query's length, no scoring throws
and the score map is the plain map. -/
theorem mapScores_ok {q : List ℚ} {l : List VectorData}
    (h : ∀ r ∈ l, r.vector.length = q.length) :
    mapScores q l =
      .ok (l.map (fun r => ⟨r.id, scoreRep q r.vector, r.metadata⟩)) := by
  induction l with
  | nil => rfl
  | cons r rest ih =>
    unfold mapScores cosineSimilarityRep
    rw [if_neg (fun hc => hc (h r (List.mem_cons_self r rest)).symm)]
    rw [ih (fun x hx => h x (List.mem_cons_of_mem r hx))]
    rfl

/-- Every row a successful score map produces is a stored record
decorated with the score of the query against its vector. -/
theorem mapScores_mem {q : List ℚ} {l : List VectorData}
    {results : List SearchResult} (h : mapScores q l = .ok results)
    {r : SearchResult} (hr : r ∈ results) :
    ∃ rec ∈ l, r.id = rec.id ∧ r.rep = scoreRep q rec.vector ∧
      r.metadata = rec.metadata := by
  induction l generalizing results with
  | nil =>
    unfold mapScores at h
    injection h with h
    rw [← h] at hr
    cases hr
  | cons x rest ih =>
    unfold mapScores at h
    cases hcs : cosineSimilarityRep q x.vector with
    | error e => rw [hcs] at h; cases h
    | ok p =>
      rw [hcs] at h
      cases hms : mapScores q rest with
      | error e => rw [hms] at h; cases h
      | ok l2 =>
        rw [hms] at h
        injection h with h
        rw [← h] at hr
        have hp : p = scoreRep q x.vector := by
          unfold cosineSimilarityRep at hcs
          by_cases hlen : q.length ≠ x.vector.length
          · rw [if_pos hlen] at hcs; cases hcs
          · rw [if_neg hlen] at hcs
            injection hcs with hcs
            exact hcs.symm
        rcases List.mem_cons.mp hr with rfl | hr2
        · exact ⟨x, List.mem_cons_self x rest, rfl, hp, rfl⟩
        · rcases ih hms hr2 with ⟨rec, hrec, hs⟩
          exact ⟨rec, List.mem_cons_of_mem x hrec, hs⟩

/-- Every row returned by `search` is a stored record decorated with the
score of the query against that record's vector. -/
theorem mem_search {st : InMemoryVectorStore} {q : List ℚ} {k : ℕ}
    {res : List SearchResult} (h : st.search q k = .ok res)
    {r : SearchResult} (hr : r ∈ res) :
    ∃ rec ∈ st.vectors, r.id = rec.id ∧ r.rep = scoreRep q rec.vector ∧
      r.metadata = rec.metadata := by
  unfold InMemoryVectorStore.search at h
  by_cases hdim : q.length ≠ st.dimension
  · rw [if_pos hdim] at h; cases h
  · rw [if_neg hdim] at h
    cases hms : mapScores q st.vectors with
    | error e => rw [hms] at h; cases h
    | ok results =>
      rw [hms] at h
      injection h with h
      subst h
      have h1 : r ∈ sortByScoreDesc results := List.take_subset _ _ hr
      have h2 : r ∈ results := (sortByScoreDesc_perm _).mem_iff.mp h1
      exact mapScores_mem hms h2

/-! ### Structure of `add` and `remove` -/

/-- On a duplicate-free store, `Map.set` yields the old records (all with a
different key) with the new record in place of the old occurrence. -/
theorem setRec_decomp {l : List VectorData} (r : VectorData)
    (hnodup : (l.map VectorData.id).Nodup) :
    ∃ l1 l2, setRec l r = l1 ++ r :: l2 ∧
      ∀ x ∈ l1 ++ l2, x ∈ l ∧ x.id ≠ r.id := by
  induction l with
  | nil => exact ⟨[], [], rfl, by simp⟩
  | cons x xs ih =>
    rw [List.map_cons, List.nodup_cons] at hnodup
    unfold setRec
    by_cases h : x.id = r.id
    · refine ⟨[], xs, by rw [if_pos h]; simp, ?_⟩
      intro y hy
      simp only [List.nil_append] at hy
      refine ⟨List.mem_cons_of_mem x hy, ?_⟩
      intro hc
      exact hnodup.1 (by
        rw [h, ← hc]
        exact List.mem_map_of_mem VectorData.id hy)
    · rcases ih hnodup.2 with ⟨l1, l2, heq, hmem⟩
      refine ⟨x :: l1, l2, by rw [if_neg h, heq]; rfl, ?_⟩
      intro y hy
      rcases List.mem_cons.mp hy with rfl | hy'
      · exact ⟨List.mem_cons_self y xs, h⟩
      · exact ⟨List.mem_cons_of_mem x (hmem y hy').1, (hmem y hy').2⟩

/-- On a duplicate-free store, after `Map.delete` no record with the
deleted key remains, and all records come from the old store. -/
theorem mem_eraseRec {l : List VectorData} {i : String}
    (hnodup : (l.map VectorData.id).Nodup) :
    ∀ x ∈ eraseRec l i, x ∈ l ∧ x.id ≠ i := by
  induction l with
  | nil => intro x hx; cases hx
  | cons y ys ih =>
    rw [List.map_cons, List.nodup_cons] at hnodup
    intro x hx
    unfold eraseRec at hx
    by_cases h : y.id = i
    · rw [if_pos h] at hx
      refine ⟨List.mem_cons_of_mem y hx, ?_⟩
      intro hc
      exact hnodup.1 (by
        rw [h, ← hc]
        exact List.mem_map_of_mem VectorData.id hx)
    · rw [if_neg h] at hx
      rcases List.mem_cons.mp hx with rfl | hx'
      · exact ⟨List.mem_cons_self x ys, h⟩
      · exact ⟨List.mem_cons_of_mem y (ih hnodup.2 x hx').1, (ih hnodup.2 x hx').2⟩

/-- A successful `add` always records the vector's own length as the store
dimension and `Map.set`s the record. -/
theorem add_ok {st st' : InMemoryVectorStore} {id : String} {v : List ℚ}
    {m : Option String} (h : st.add id v m = .ok st') :
    st'.vectors = setRec st.vectors ⟨id, v, m⟩ ∧ st'.dimension = v.length := by
  unfold InMemoryVectorStore.add at h
  by_cases h0 : st.dimension = 0
  · rw [if_pos h0] at h
    injection h with h
    rw [← h]
    exact ⟨rfl, rfl⟩
  · rw [if_neg h0] at h
    by_cases hlen : v.length ≠ st.dimension
    · rw [if_pos hlen] at h; cases h
    · rw [if_neg hlen] at h
      injection h with h
      push_neg at hlen
      rw [← h]
      exact ⟨rfl, hlen.symm⟩

/-- Cosine self-similarity of a vector with nonzero norm is exactly 1. -/
theorem scoreVal_self {v : List ℚ} (hv : normSq v ≠ 0) :
    scoreVal (scoreRep v v) = 1 := by
  have hpos : (0 : ℚ) < normSq v := lt_of_le_of_ne (normSq_nonneg v) (Ne.symm hv)
  have hdot : dotProduct v v = normSq v := rfl
  unfold scoreRep scoreVal
  rw [if_neg (by tauto)]
  simp only [hdot]
  have hcast : ((normSq v * normSq v : ℚ) : ℝ) = (normSq v : ℝ) ^ 2 := by
    push_cast; ring
  rw [hcast, Real.sqrt_sq (by exact_mod_cast hpos.le)]
  have : (0 : ℝ) < (normSq v : ℝ) := by exact_mod_cast hpos
  field_simp

/-- Cauchy-Schwarz for the accumulation loops: on equal-length vectors the
squared dot product is at most the product of the squared norms. -/
theorem dotProduct_sq_le (a b : List ℚ) (h : a.length = b.length) :
    dotProduct a b ^ 2 ≤ normSq a * normSq b := by
  unfold dotProduct normSq
  rw [show Finset.range b.length = Finset.range a.length by rw [h]]
  have := Finset.sum_mul_sq_le_sq_mul_sq (Finset.range a.length)
    (fun i => a.getD i 0) (fun i => b.getD i 0)
  calc (∑ i ∈ Finset.range a.length, a.getD i 0 * b.getD i 0) ^ 2
      ≤ (∑ i ∈ Finset.range a.length, a.getD i 0 ^ 2) *
        ∑ i ∈ Finset.range a.length, b.getD i 0 ^ 2 := this
    _ = (∑ i ∈ Finset.range a.length, a.getD i 0 * a.getD i 0) *
        ∑ i ∈ Finset.range a.length, b.getD i 0 * b.getD i 0 := by
      simp only [sq]

/-- The cosine similarity of equal-length vectors lies in `[-1, 1]`. -/
theorem cosineSimilarity_mem (a b : List ℚ) (h : a.length = b.length) :
    -1 ≤ cosineSimilarity a b ∧ cosineSimilarity a b ≤ 1 := by
  unfold cosineSimilarity
  by_cases h0 : normSq a = 0 ∨ normSq b = 0
  · rw [if_pos h0]
    norm_num
  · push_neg at h0
    rw [if_neg (by tauto)]
    have hA : (0 : ℚ) < normSq a := lt_of_le_of_ne (normSq_nonneg a) (Ne.symm h0.1)
    have hB : (0 : ℚ) < normSq b := lt_of_le_of_ne (normSq_nonneg b) (Ne.symm h0.2)
    have hAR : (0 : ℝ) < (normSq a : ℝ) := by exact_mod_cast hA
    have hBR : (0 : ℝ) < (normSq b : ℝ) := by exact_mod_cast hB
    have hden : (0 : ℝ) < Real.sqrt (normSq a) * Real.sqrt (normSq b) :=
      mul_pos (Real.sqrt_pos.mpr hAR) (Real.sqrt_pos.mpr hBR)
    have habs : |(dotProduct a b : ℝ)| ≤
        Real.sqrt (normSq a) * Real.sqrt (normSq b) := by
      rw [← Real.sqrt_sq_eq_abs, ← Real.sqrt_mul hAR.le]
      apply Real.sqrt_le_sqrt
      exact_mod_cast dotProduct_sq_le a b h
    rw [← abs_le]
    rw [abs_div, abs_of_pos hden]
    exact div_le_one_of_le₀ habs hden.le

/-! ## Claims about the vector store -/

/-- C2 (counterexample): the round-trip claim fails as stated.  With the
record `("b", [2])` already stored, adding `("a", [1])` and searching with
`[1]` and `topK = 1` returns `"b"`, not `"a"`: both records score exactly
1 and the stable sort keeps the earlier-inserted record first. -/
theorem C2_counterexample :
    ((emptyStore.add "b" [2] none).bind (fun st1 =>
      (st1.add "a" [1] none).bind (fun st2 =>
        st2.search [1] 1))).map (fun l => l.map SearchResult.id) =
      .ok ["b"] ∧ ("b" : String) ≠ "a" := by
  constructor
  · norm_num +decide [emptyStore, InMemoryVectorStore.add,
      InMemoryVectorStore.search, mapScores, cosineSimilarityRep, setRec,
      Except.bind, Except.map, sortByScoreDesc, insertScoreDesc, scoreRep,
      repLe, normSq, dotProduct, Finset.sum_range_succ]
  · decide

/-- C2 (amended): after `add(id, v, m)` succeeds on a duplicate-free
collection whose stored vectors all have `v`'s length (so no scoring
throws), if `v` has nonzero norm and every *other* stored vector has
cosine similarity with `v` strictly below 1, then `search(v, 1)` returns
exactly the row for `id` and its score is exactly 1. -/
theorem C2_roundtrip_amended (st st' : InMemoryVectorStore) (id : String)
    (v : List ℚ) (m : Option String)
    (hnodup : (st.vectors.map VectorData.id).Nodup)
    (hv : normSq v ≠ 0)
    (hWF : ∀ rec ∈ st.vectors, rec.vector.length = v.length)
    (hlt : ∀ rec ∈ st.vectors, rec.id ≠ id →
      cosineSimilarity v rec.vector < 1)
    (hadd : st.add id v m = .ok st') :
    st'.search v 1 = .ok [⟨id, scoreRep v v, m⟩] ∧
      scoreVal (scoreRep v v) = 1 := by
  obtain ⟨hvecs, hdim⟩ := add_ok hadd
  refine ⟨?_, scoreVal_self hv⟩
  obtain ⟨l1, l2, hsplit, hmem⟩ := setRec_decomp ⟨id, v, m⟩ hnodup
  set x : SearchResult := ⟨id, scoreRep v v, m⟩ with hx
  have hmap : st'.vectors.map
      (fun r => (⟨r.id, scoreRep v r.vector, r.metadata⟩ : SearchResult)) =
      l1.map (fun r => ⟨r.id, scoreRep v r.vector, r.metadata⟩) ++
      x :: l2.map (fun r => ⟨r.id, scoreRep v r.vector, r.metadata⟩) := by
    rw [hvecs, hsplit]
    simp
  have hxmem : x ∈ st'.vectors.map
      (fun r => (⟨r.id, scoreRep v r.vector, r.metadata⟩ : SearchResult)) := by
    rw [hmap]
    exact List.mem_append_right _ (List.mem_cons_self x _)
  have hpos : ∀ y ∈ st'.vectors.map
      (fun r => (⟨r.id, scoreRep v r.vector, r.metadata⟩ : SearchResult)),
      0 < y.rep.2 := by
    intro y hy
    rcases List.mem_map.mp hy with ⟨rec, _, hre⟩
    rw [← hre]
    exact scoreRep_snd_pos v rec.vector
  have hmax : ∀ y ∈ st'.vectors.map
      (fun r => (⟨r.id, scoreRep v r.vector, r.metadata⟩ : SearchResult)),
      y ≠ x → scoreVal y.rep < scoreVal x.rep := by
    intro y hy hne
    rw [hmap] at hy
    rcases List.mem_append.mp hy with hy1 | hy2
    · rcases List.mem_map.mp hy1 with ⟨rec, hrec, hre⟩
      have hrecmem := hmem rec (List.mem_append_left _ hrec)
      rw [← hre]
      show scoreVal (scoreRep v rec.vector) < scoreVal x.rep
      rw [scoreVal_scoreRep, hx, scoreVal_self hv]
      exact hlt rec hrecmem.1 hrecmem.2
    · rcases List.mem_cons.mp hy2 with rfl | hy3
      · exact absurd rfl hne
      · rcases List.mem_map.mp hy3 with ⟨rec, hrec, hre⟩
        have hrecmem := hmem rec (List.mem_append_right _ hrec)
        rw [← hre]
        show scoreVal (scoreRep v rec.vector) < scoreVal x.rep
        rw [scoreVal_scoreRep, hx, scoreVal_self hv]
        exact hlt rec hrecmem.1 hrecmem.2
  obtain ⟨t, ht⟩ := sortByScoreDesc_head hxmem hpos hmax
  have hlen : ∀ rec ∈ st'.vectors, rec.vector.length = v.length := by
    intro rec hrec
    rw [hvecs, hsplit] at hrec
    rcases List.mem_append.mp hrec with h1 | h2
    · exact hWF rec (hmem rec (List.mem_append_left _ h1)).1
    · rcases List.mem_cons.mp h2 with rfl | h3
      · rfl
      · exact hWF rec (hmem rec (List.mem_append_right _ h3)).1
  unfold InMemoryVectorStore.search
  rw [if_neg (by rw [hdim]; exact fun hc => hc rfl)]
  rw [mapScores_ok hlen]
  dsimp only
  rw [ht]
  rfl

/-- C2 (witness for the amended round-trip): a concrete successful add on
a store holding an orthogonal vector. -/
theorem C2_roundtrip_amended_witness :
    ((⟨[⟨"b", [0, 1], none⟩], 2⟩ : InMemoryVectorStore).add "a" [1, 0] none =
      .ok ⟨[⟨"b", [0, 1], none⟩, ⟨"a", [1, 0], none⟩], 2⟩) ∧
    ((⟨[⟨"b", [0, 1], none⟩, ⟨"a", [1, 0], none⟩], 2⟩ :
        InMemoryVectorStore).search [1, 0] 1 =
      .ok [⟨"a", scoreRep [1, 0] [1, 0], none⟩] ∧
      scoreVal (scoreRep [1, 0] [1, 0]) = 1) := by
  have hadd : (⟨[⟨"b", [0, 1], none⟩], 2⟩ : InMemoryVectorStore).add
      "a" [1, 0] none =
      .ok ⟨[⟨"b", [0, 1], none⟩, ⟨"a", [1, 0], none⟩], 2⟩ := by
    norm_num +decide [InMemoryVectorStore.add, setRec]
  refine ⟨hadd, ?_⟩
  apply C2_roundtrip_amended ⟨[⟨"b", [0, 1], none⟩], 2⟩ _ "a" [1, 0] none
  · simp
  · norm_num [normSq, Finset.sum_range_succ]
  · decide
  · intro rec hrec hne
    rcases List.mem_singleton.mp hrec with rfl
    show cosineSimilarity [1, 0] [0, 1] < 1
    have : cosineSimilarity [1, 0] [0, 1] = 0 := by
      unfold cosineSimilarity
      rw [if_neg]
      · norm_num [dotProduct, Finset.sum_range_succ]
      · norm_num [normSq, Finset.sum_range_succ]
    rw [this]
    norm_num
  · exact hadd

/-- C5 (counterexample): searching a *fresh* empty store with a non-empty
query vector raises the dimension-mismatch error (the store's dimension is
still 0), so "any query vector, any topK" fails as stated. -/
theorem C5_counterexample :
    emptyStore.search [0] 1 = .error "Query vector dimension mismatch" := by
  rfl

/-- C5 (amended): searching an empty collection returns the empty list
(no error) provided the query vector's length equals the collection's
recorded dimension — 0 for a never-used collection, or the fixed dimension
after all records have been removed. -/
theorem C5_empty_search_amended (st : InMemoryVectorStore) (q : List ℚ)
    (k : ℕ) (hempty : st.vectors = []) (hq : q.length = st.dimension) :
    st.search q k = .ok [] := by
  unfold InMemoryVectorStore.search
  rw [if_neg (fun hc => hc hq), hempty]
  simp [mapScores, sortByScoreDesc]

/-- C5 (witness): the empty query on a fresh store. -/
theorem C5_empty_search_amended_witness :
    emptyStore.search [] 5 = .ok [] :=
  C5_empty_search_amended emptyStore [] 5 rfl rfl

/-- C10: every score `search` attaches is the cosine similarity of the
query against the matching stored record, a well-defined real number in
`[-1, 1]`; if either the query or the stored vector has zero norm the
score is exactly 0 (the division is guarded).  The first conjunct states
the bound for `cosineSimilarity` itself on any two equal-length vectors. -/
theorem C10_scores_bounded (a b : List ℚ) (hab : a.length = b.length)
    (st : InMemoryVectorStore) (q : List ℚ) (k : ℕ) (res : List SearchResult)
    (hWF : ∀ rec ∈ st.vectors, rec.vector.length = st.dimension)
    (hq : q.length = st.dimension)
    (hres : st.search q k = .ok res) :
    (-1 ≤ cosineSimilarity a b ∧ cosineSimilarity a b ≤ 1 ∧
      ((normSq a = 0 ∨ normSq b = 0) → cosineSimilarity a b = 0)) ∧
    ∀ r ∈ res, ∃ rec ∈ st.vectors, r.id = rec.id ∧
      scoreVal r.rep = cosineSimilarity q rec.vector ∧
      -1 ≤ scoreVal r.rep ∧ scoreVal r.rep ≤ 1 ∧
      ((normSq q = 0 ∨ normSq rec.vector = 0) → scoreVal r.rep = 0) := by
  constructor
  · refine ⟨(cosineSimilarity_mem a b hab).1, (cosineSimilarity_mem a b hab).2, ?_⟩
    intro h0
    unfold cosineSimilarity
    rw [if_pos h0]
  · intro r hr
    obtain ⟨rec, hrec, hid, hrep, _⟩ := mem_search hres hr
    have hlen : q.length = rec.vector.length := by rw [hq, hWF rec hrec]
    refine ⟨rec, hrec, hid, ?_, ?_, ?_, ?_⟩
    · rw [hrep, scoreVal_scoreRep]
    · rw [hrep, scoreVal_scoreRep]
      exact (cosineSimilarity_mem q rec.vector hlen).1
    · rw [hrep, scoreVal_scoreRep]
      exact (cosineSimilarity_mem q rec.vector hlen).2
    · intro h0
      rw [hrep, scoreVal_scoreRep]
      unfold cosineSimilarity
      rw [if_pos h0]

/-- C10 (witness): a one-record store searched with a zero query vector:
the single result scores exactly 0. -/
theorem C10_scores_bounded_witness :
    (∀ rec ∈ ({ vectors := [⟨"a", [1], none⟩], dimension := 1 } :
        InMemoryVectorStore).vectors, rec.vector.length = 1) ∧
    (({ vectors := [⟨"a", [1], none⟩], dimension := 1 } :
        InMemoryVectorStore).search [0] 1 =
      .ok [⟨"a", scoreRep [0] [1], none⟩]) ∧
    ∀ r ∈ [(⟨"a", scoreRep [0] [1], none⟩ : SearchResult)],
      ∃ rec ∈ ({ vectors := [⟨"a", [1], none⟩], dimension := 1 } :
        InMemoryVectorStore).vectors, r.id = rec.id ∧
        scoreVal r.rep = cosineSimilarity [0] rec.vector ∧
        -1 ≤ scoreVal r.rep ∧ scoreVal r.rep ≤ 1 ∧
        ((normSq [0] = 0 ∨ normSq rec.vector = 0) → scoreVal r.rep = 0) := by
  have hsearch : ({ vectors := [⟨"a", [1], none⟩], dimension := 1 } :
      InMemoryVectorStore).search [0] 1 =
      .ok [⟨"a", scoreRep [0] [1], none⟩] := by
    norm_num +decide [InMemoryVectorStore.search, mapScores,
      cosineSimilarityRep, sortByScoreDesc, insertScoreDesc]
  refine ⟨by decide, hsearch, ?_⟩
  exact (C10_scores_bounded [0] [0] rfl
    { vectors := [⟨"a", [1], none⟩], dimension := 1 } [0] 1
    [⟨"a", scoreRep [0] [1], none⟩] (by decide) rfl hsearch).2

/-! ## K-means lemmas -/

namespace KMeansClustering

theorem argmin_mem (f : ℕ → ℚ) (js : List ℕ) (b : ℕ) :
    argmin f js b = b ∨ argmin f js b ∈ js := by
  induction js generalizing b with
  | nil => exact Or.inl rfl
  | cons j js ih =>
    unfold argmin
    by_cases h : f j < f b
    · rw [if_pos h]
      rcases ih j with h1 | h1
      · exact Or.inr (by rw [h1]; exact List.mem_cons_self j js)
      · exact Or.inr (List.mem_cons_of_mem j h1)
    · rw [if_neg h]
      rcases ih b with h1 | h1
      · exact Or.inl h1
      · exact Or.inr (List.mem_cons_of_mem j h1)

theorem argmin_min (f : ℕ → ℚ) (js : List ℕ) (b : ℕ) :
    f (argmin f js b) ≤ f b ∧ ∀ j ∈ js, f (argmin f js b) ≤ f j := by
  induction js generalizing b with
  | nil => exact ⟨le_refl _, fun j hj => absurd hj (List.not_mem_nil j)⟩
  | cons j js ih =>
    unfold argmin
    by_cases h : f j < f b
    · rw [if_pos h]
      refine ⟨le_trans (ih j).1 h.le, ?_⟩
      rw [List.forall_mem_cons]
      exact ⟨(ih j).1, (ih j).2⟩
    · rw [if_neg h]
      push_neg at h
      refine ⟨(ih b).1, ?_⟩
      rw [List.forall_mem_cons]
      exact ⟨le_trans (ih b).1 h, (ih b).2⟩

theorem bestCluster_eq_argmin (v : List ℚ) {k : ℕ} (cent : List (List ℚ))
    {b : ℕ} {js : List ℕ} (h : List.range k = b :: js) :
    bestCluster v k cent = argmin (fun j0 => sqDist v (cent.getD j0 [])) js b := by
  unfold bestCluster
  rw [h]

theorem bestCluster_lt (v : List ℚ) {k : ℕ} (cent : List (List ℚ))
    (hk : 1 ≤ k) : bestCluster v k cent < k := by
  rcases h : List.range k with _ | ⟨b, js⟩
  · exact absurd (List.range_eq_nil.mp h) (by omega)
  · rw [bestCluster_eq_argmin v cent h]
    have hmem : argmin (fun j0 => sqDist v (cent.getD j0 [])) js b ∈ b :: js := by
      rcases argmin_mem (fun j0 => sqDist v (cent.getD j0 [])) js b with h1 | h1
      · rw [h1]; exact List.mem_cons_self b js
      · exact List.mem_cons_of_mem b h1
    rw [← h] at hmem
    exact List.mem_range.mp hmem

theorem bestCluster_min (v : List ℚ) {k : ℕ} (cent : List (List ℚ)) :
    ∀ j < k,
    sqDist v (cent.getD (bestCluster v k cent) []) ≤ sqDist v (cent.getD j []) := by
  intro j hj
  rcases h : List.range k with _ | ⟨b, js⟩
  · exact absurd (List.range_eq_nil.mp h) (by omega)
  · rw [bestCluster_eq_argmin v cent h]
    have hjmem : j ∈ b :: js := by
      rw [← h]
      exact List.mem_range.mpr hj
    rcases List.mem_cons.mp hjmem with heq | hj1
    · rw [heq]
      exact (argmin_min (fun j0 => sqDist v (cent.getD j0 [])) js b).1
    · exact (argmin_min (fun j0 => sqDist v (cent.getD j0 [])) js b).2 j hj1

end KMeansClustering

/-! ### Partitioning a list by an integer key -/

/-- Rewrite a `flatMap` when the functions agree on the list. -/
theorem flatMap_congr_on {α β : Type} {L : List α} {f g : α → List β}
    (h : ∀ a ∈ L, f a = g a) : L.flatMap f = L.flatMap g := by
  induction L with
  | nil => rfl
  | cons a L ih =>
    simp only [List.flatMap_cons]
    rw [h a (List.mem_cons_self a L), ih (fun a ha => h a (List.mem_cons_of_mem _ ha))]

/-- Concatenating, over a duplicate-free index list, the sublists of `l`
whose key equals each index recovers `l` up to permutation, provided every
element's key occurs among the indices. -/
theorem flatMap_filter_perm {α : Type} (key : α → ℤ) (L : List ℕ) (l : List α)
    (hL : L.Nodup) (h : ∀ p ∈ l, ∃ j ∈ L, key p = Int.ofNat j) :
    (L.flatMap (fun j => l.filter (fun p => key p == Int.ofNat j))) ~ l := by
  induction l with
  | nil =>
    simp only [List.filter_nil]
    rw [show (L.flatMap fun _ => ([] : List α)) = [] by
      induction L with
      | nil => rfl
      | cons a L ih => simp [ih]]
  | cons x l ih =>
    obtain ⟨t, htL, hxt⟩ := h x (List.mem_cons_self x l)
    obtain ⟨L1, L2, rfl⟩ := List.append_of_mem htL
    have hnodup := hL
    rw [List.nodup_append] at hnodup
    have ht1 : t ∉ L1 := fun hc => hnodup.2.2 hc (List.mem_cons_self t L2)
    have ht2 : t ∉ L2 := by
      have h3 := hnodup.2.1
      rw [List.nodup_cons] at h3
      exact h3.1
    have hstep : ∀ j ∈ L1 ++ L2, ((x :: l).filter (fun p => key p == Int.ofNat j)) =
        l.filter (fun p => key p == Int.ofNat j) := by
      intro j hj
      have hjt : j ≠ t := by
        rcases List.mem_append.mp hj with hj1 | hj1
        · exact fun hc => ht1 (hc ▸ hj1)
        · exact fun hc => ht2 (hc ▸ hj1)
      have hcond : ¬ ((key x == Int.ofNat j) = true) := by
        simp only [beq_iff_eq, hxt]
        intro hc
        exact hjt (Int.ofNat.inj hc).symm
      rw [List.filter_cons, if_neg hcond]
    have hx1 : ∀ j ∈ L1, ((x :: l).filter (fun p => key p == Int.ofNat j)) =
        l.filter (fun p => key p == Int.ofNat j) :=
      fun j hj => hstep j (List.mem_append_left _ hj)
    have hx2 : ∀ j ∈ L2, ((x :: l).filter (fun p => key p == Int.ofNat j)) =
        l.filter (fun p => key p == Int.ofNat j) :=
      fun j hj => hstep j (List.mem_append_right _ hj)
    have hxT : (x :: l).filter (fun p => key p == Int.ofNat t) =
        x :: l.filter (fun p => key p == Int.ofNat t) := by
      rw [List.filter_cons, if_pos]
      simp [hxt]
    rw [List.flatMap_append, List.flatMap_cons]
    rw [flatMap_congr_on hx1, flatMap_congr_on hx2, hxT]
    have hmid : L1.flatMap (fun j => l.filter (fun p => key p == Int.ofNat j)) ++
        (x :: l.filter (fun p => key p == Int.ofNat t) ++
          L2.flatMap (fun j => l.filter (fun p => key p == Int.ofNat j))) ~
        x :: (L1.flatMap (fun j => l.filter (fun p => key p == Int.ofNat j)) ++
          (l.filter (fun p => key p == Int.ofNat t) ++
            L2.flatMap (fun j => l.filter (fun p => key p == Int.ofNat j)))) :=
      List.perm_middle
    refine hmid.trans (List.Perm.cons x ?_)
    have hrest : ∀ p ∈ l, ∃ j ∈ L1 ++ t :: L2, key p = Int.ofNat j :=
      fun p hp => h p (List.mem_cons_of_mem x hp)
    have h4 := ih hrest
    rw [List.flatMap_append, List.flatMap_cons] at h4
    exact h4

/-! ### `mapIdxFrom` facts -/

theorem length_mapIdxFrom {α β : Type} (f : ℕ → α → β) (n : ℕ) (l : List α) :
    (mapIdxFrom f n l).length = l.length := by
  induction l generalizing n with
  | nil => rfl
  | cons x xs ih => simp [mapIdxFrom, ih]

theorem getD_mapIdxFrom {α β : Type} (f : ℕ → α → β) (n : ℕ) (l : List α)
    (i : ℕ) (hi : i < l.length) (d : α) (d' : β) :
    (mapIdxFrom f n l).getD i d' = f (n + i) (l.getD i d) := by
  induction l generalizing n i with
  | nil => cases hi
  | cons x xs ih =>
    cases i with
    | zero => simp [mapIdxFrom]
    | succ i =>
      simp only [mapIdxFrom, List.getD_cons_succ]
      rw [ih (n + 1) i (by simp at hi; omega)]
      congr 1
      omega

theorem getD_mapIdxFrom_ge {α β : Type} (f : ℕ → α → β) (n : ℕ) (l : List α)
    (i : ℕ) (hi : l.length ≤ i) (d' : β) :
    (mapIdxFrom f n l).getD i d' = d' := by
  apply List.getD_eq_default
  rw [length_mapIdxFrom]
  exact hi

namespace KMeansClustering

/-- The assignments returned by the loop always come from one final
assignment step (the loop starts from `fill(-1)` only as a sentinel and
always runs at least one assignment when given fuel). -/
theorem kmeansLoop_fst (vecs : List (List ℚ)) (k : ℕ) (fuel : ℕ)
    (prev : List ℤ) (cent : List (List ℚ)) :
    ∃ cent', (kmeansLoop vecs k (fuel + 1) prev cent).1 =
      assignStep vecs k cent' := by
  induction fuel generalizing prev cent with
  | zero =>
    rw [show kmeansLoop vecs k 1 prev cent =
        (if assignStep vecs k cent = prev then (assignStep vecs k cent, cent)
         else kmeansLoop vecs k 0 (assignStep vecs k cent)
           (updateCentroids vecs k (assignStep vecs k cent) cent)) from rfl]
    by_cases h : assignStep vecs k cent = prev
    · rw [if_pos h]
      exact ⟨cent, rfl⟩
    · rw [if_neg h]
      exact ⟨cent, rfl⟩
  | succ f ih =>
    rw [show kmeansLoop vecs k (f + 1 + 1) prev cent =
        (if assignStep vecs k cent = prev then (assignStep vecs k cent, cent)
         else kmeansLoop vecs k (f + 1) (assignStep vecs k cent)
           (updateCentroids vecs k (assignStep vecs k cent) cent)) from rfl]
    by_cases h : assignStep vecs k cent = prev
    · rw [if_pos h]
      exact ⟨cent, rfl⟩
    · rw [if_neg h]
      exact ih _ _

/-- The items of the built clusters are exactly the concatenation, over
all partition indices, of the ids assigned to that index (dropping a
cluster's empty item list changes nothing in the concatenation). -/
theorem buildClusters_flatMap_items (vectors : List (String × List ℚ))
    (k : ℕ) (a : List ℤ) (cent : List (List ℚ)) :
    (buildClusters vectors k a cent).flatMap ClusterOut.items =
    (List.range k).flatMap (fun j =>
      ((vectors.zip a).filter (fun p => p.2 == Int.ofNat j)).map
        (fun p => p.1.1)) := by
  unfold buildClusters
  generalize List.range k = L
  induction L with
  | nil => rfl
  | cons j L ih =>
    rw [List.filterMap_cons, List.flatMap_cons]
    by_cases hj : (((vectors.zip a).filter (fun p => p.2 == Int.ofNat j)).map
        (fun p => p.1.1)).isEmpty
    · rw [if_pos hj]
      dsimp only
      rw [List.isEmpty_iff.mp hj]
      simpa using ih
    · rw [if_neg hj]
      dsimp only
      rw [List.flatMap_cons, ih]

/-- Every emitted cluster has a non-empty item list. -/
theorem buildClusters_items_ne_nil (vectors : List (String × List ℚ))
    (k : ℕ) (a : List ℤ) (cent : List (List ℚ)) :
    ∀ c ∈ buildClusters vectors k a cent, c.items ≠ [] := by
  intro c hc
  unfold buildClusters at hc
  rcases List.mem_filterMap.mp hc with ⟨j, _, hj⟩
  by_cases he : (((vectors.zip a).filter (fun p => p.2 == Int.ofNat j)).map
      (fun p => p.1.1)).isEmpty
  · simp only [he] at hj
    cases hj
  · simp only [he] at hj
    injection hj with hj
    rw [← hj]
    simp only [ne_eq]
    intro hc2
    exact he (by rw [hc2]; rfl)

/-- The singleton branch (`vectors.length <= k`): its item lists
concatenate to the input ids in order. -/
theorem mapIdxFrom_singleton_items (vectors : List (String × List ℚ))
    (start : ℕ) :
    (mapIdxFrom (fun i v => (⟨"cluster_" ++ toString i,
      "Group " ++ toString (i + 1), [v.1], v.2⟩ : ClusterOut)) start
      vectors).flatMap ClusterOut.items = vectors.map Prod.fst := by
  induction vectors generalizing start with
  | nil => rfl
  | cons v vs ih =>
    simp only [mapIdxFrom, List.flatMap_cons, List.map_cons]
    rw [ih]
    rfl

end KMeansClustering

/-! ## Claims about the clustering engine -/

open KMeansClustering in
/-- C1 (counterexample): for `k = 0` and a non-empty input the claim
fails: the assignment loop writes `0` into every slot but the result loop
`for (j = 0; j < k; j++)` emits nothing, so every input id is lost and
the output does not partition the input id set. -/
theorem C1_counterexample :
    cluster [("a", [0])] 0 (fun _ => 0) = [] ∧
    ¬ (((cluster [("a", [0])] 0 (fun _ => 0)).flatMap ClusterOut.items) ~
      ["a"]) := by
  have h : cluster [("a", [0])] 0 (fun _ => 0) = [] := by
    norm_num [cluster, initCentroids, kmeansLoop, assignStep, bestCluster,
      updateCentroids, buildClusters, mapIdxFrom]
  refine ⟨h, ?_⟩
  rw [h]
  intro hperm
  have := hperm.length_eq
  simp at this

open KMeansClustering in
/-- C1 (amended, `k >= 1`): the clusters returned by
`KMeansClustering.cluster` partition the input ids exactly — the
concatenation of all `items` is a permutation of the input id list (each
id exactly once, none lost), every emitted cluster is non-empty, and at
most `k` clusters are emitted — for every random stream. -/
theorem C1_cluster_partition_amended (vectors : List (String × List ℚ))
    (k : ℕ) (rand : ℕ → ℚ) (hk : 1 ≤ k) :
    (((cluster vectors k rand).flatMap ClusterOut.items) ~
      vectors.map Prod.fst) ∧
    (∀ c ∈ cluster vectors k rand, c.items ≠ []) ∧
    (cluster vectors k rand).length ≤ k := by
  unfold cluster
  by_cases h0 : vectors.length = 0
  · rw [if_pos h0]
    rw [List.length_eq_zero.mp h0]
    refine ⟨by rfl, ?_, by simp⟩
    intro c hc
    cases hc
  · rw [if_neg h0]
    by_cases h1 : vectors.length ≤ k
    · rw [if_pos h1]
      refine ⟨?_, ?_, ?_⟩
      · rw [mapIdxFrom_singleton_items]
      · intro c hc
        have haux : ∀ (vs : List (String × List ℚ)) (start : ℕ),
            ∀ c ∈ mapIdxFrom (fun i v =>
            (⟨"cluster_" ++ toString i, "Group " ++ toString (i + 1),
              [v.1], v.2⟩ : ClusterOut)) start vs, c.items ≠ [] := by
          intro vs
          induction vs with
          | nil => intro start c hc; cases hc
          | cons v vs ih =>
            intro start c hc
            rcases List.mem_cons.mp hc with rfl | hc'
            · simp
            · exact ih (start + 1) c hc'
        exact haux vectors 0 c hc
      · rw [length_mapIdxFrom]
        exact h1
    · rw [if_neg h1]
      obtain ⟨cent', hcent'⟩ := kmeansLoop_fst (vectors.map Prod.snd) k 99
        (List.replicate vectors.length (-1))
        (initCentroids vectors k rand)
      set r := kmeansLoop (vectors.map Prod.snd) k 100
        (List.replicate vectors.length (-1)) (initCentroids vectors k rand)
        with hr
      have hkey : ∀ p ∈ vectors.zip r.1, ∃ j ∈ List.range k,
          p.2 = Int.ofNat j := by
        intro p hp
        have hsnd : p.2 ∈ r.1 := (List.of_mem_zip hp).2
        rw [hcent'] at hsnd
        unfold assignStep at hsnd
        rcases List.mem_map.mp hsnd with ⟨v, _, hv⟩
        exact ⟨bestCluster v k cent', List.mem_range.mpr
          (bestCluster_lt v cent' hk), hv.symm⟩
      have hlen : vectors.length ≤ r.1.length := by
        rw [hcent']
        unfold assignStep
        simp
      refine ⟨?_, buildClusters_items_ne_nil vectors k r.1 r.2, ?_⟩
      · rw [buildClusters_flatMap_items]
        have hperm := flatMap_filter_perm (fun p => p.2) (List.range k)
          (vectors.zip r.1) (List.nodup_range k) hkey
        calc (List.range k).flatMap (fun j =>
              ((vectors.zip r.1).filter (fun p => p.2 == Int.ofNat j)).map
                (fun p => p.1.1))
            = ((List.range k).flatMap (fun j =>
              (vectors.zip r.1).filter (fun p => p.2 == Int.ofNat j))).map
                (fun p => p.1.1) := by
              rw [List.map_flatMap]
          _ ~ (vectors.zip r.1).map (fun p => p.1.1) := hperm.map _
          _ = vectors.map Prod.fst := by
              rw [show (fun p : (String × List ℚ) × ℤ => p.1.1) =
                (Prod.fst ∘ Prod.fst) from rfl]
              rw [← List.map_map, List.map_fst_zip _ _ hlen]
      · unfold buildClusters
        calc ((List.range k).filterMap _).length
            ≤ (List.range k).length := List.length_filterMap_le _ _
          _ = k := List.length_range k

/-! ### Cost monotonicity lemmas -/

namespace KMeansClustering

/-- Expansion of a sum of squared deviations. -/
theorem sum_sub_sq_list (xs : List ℚ) (c : ℚ) :
    (xs.map (fun x => (x - c) ^ 2)).sum =
      (xs.map (fun x => x ^ 2)).sum - 2 * c * xs.sum +
        (xs.length : ℚ) * c ^ 2 := by
  induction xs with
  | nil => simp
  | cons x xs ih =>
    simp only [List.map_cons, List.sum_cons, List.length_cons, ih]
    push_cast
    ring

/-- The mean minimizes the sum of squared deviations (1-dimensional). -/
theorem mean_min_1d (xs : List ℚ) (hne : xs ≠ []) (c : ℚ) :
    (xs.map (fun x => (x - xs.sum / (xs.length : ℚ)) ^ 2)).sum ≤
      (xs.map (fun x => (x - c) ^ 2)).sum := by
  have hn : (0 : ℚ) < (xs.length : ℚ) := by
    have := List.length_pos.mpr hne
    exact_mod_cast this
  rw [sum_sub_sq_list, sum_sub_sq_list]
  set S := xs.sum with hSdef
  set n := (xs.length : ℚ) with hndef
  set m := S / n with hm
  have hSm : S = n * m := by
    rw [hm]
    field_simp
  rw [hSm]
  nlinarith [mul_nonneg hn.le (sq_nonneg (c - m))]

/-- Swapping a list sum of `Finset.range` sums. -/
theorem list_sum_range_sum_comm {α : Type} (l : List α) (d : ℕ)
    (h : α → ℕ → ℚ) :
    (l.map (fun q => ∑ i ∈ Finset.range d, h q i)).sum =
      ∑ i ∈ Finset.range d, (l.map (fun q => h q i)).sum := by
  induction l with
  | nil => simp
  | cons q l ih =>
    simp only [List.map_cons, List.sum_cons, ih]
    rw [← Finset.sum_add_distrib]

/-- Reading one coordinate of a `List.range`-built list. -/
theorem getD_map_range {α : Type} (f : ℕ → α) (d i : ℕ) (hi : i < d)
    (dflt : α) : ((List.range d).map f).getD i dflt = f i := by
  rw [List.getD_eq_getElem _ _ (by simpa using hi)]
  simp

/-- Coordinate `i < d` of `calculateCentroid` is the mean of the `i`-th
coordinates. -/
theorem calculateCentroid_getD (pts : List (List ℚ)) (d : ℕ) (hne : pts ≠ [])
    (hd : ∀ p ∈ pts, p.length = d) (i : ℕ) (hi : i < d) :
    (calculateCentroid pts).getD i 0 =
      (pts.map (fun q => q.getD i 0)).sum / (pts.length : ℚ) := by
  rcases pts with _ | ⟨p, rest⟩
  · exact absurd rfl hne
  · unfold calculateCentroid
    dsimp only
    rw [hd p (List.mem_cons_self p rest)]
    exact getD_map_range _ d i hi 0

/-- `sqDist` of a length-`d` vector as a coordinate sum over `range d`. -/
theorem sqDist_eq_range {q : List ℚ} {d : ℕ} (hq : q.length = d)
    (c : List ℚ) :
    sqDist q c = ∑ i ∈ Finset.range d, (q.getD i 0 - c.getD i 0) ^ 2 := by
  unfold sqDist
  rw [hq]

/-- The coordinate-wise mean minimizes the total squared distance over a
cluster: the heart of the centroid-update step. -/
theorem sum_sqDist_calculateCentroid_le (pts : List (List ℚ)) (c : List ℚ)
    (d : ℕ) (hne : pts ≠ []) (hd : ∀ p ∈ pts, p.length = d) :
    (pts.map (fun q => sqDist q (calculateCentroid pts))).sum ≤
      (pts.map (fun q => sqDist q c)).sum := by
  have hrw : ∀ x : List ℚ, (pts.map (fun q => sqDist q x)).sum =
      ∑ i ∈ Finset.range d, (pts.map (fun q =>
        (q.getD i 0 - x.getD i 0) ^ 2)).sum := by
    intro x
    rw [List.map_congr_left (fun q hq => sqDist_eq_range (hd q hq) x)]
    exact list_sum_range_sum_comm pts d _
  rw [hrw, hrw]
  apply Finset.sum_le_sum
  intro i hi
  have hi' : i < d := Finset.mem_range.mp hi
  rw [calculateCentroid_getD pts d hne hd i hi']
  have hxs : ∀ t : ℚ, (pts.map (fun q => (q.getD i 0 - t) ^ 2)).sum =
      ((pts.map (fun q => q.getD i 0)).map (fun x => (x - t) ^ 2)).sum := by
    intro t
    rw [List.map_map]
    rfl
  rw [hxs, hxs]
  have hlen : ((pts.map (fun q => q.getD i 0)).length : ℚ) = (pts.length : ℚ) := by
    rw [List.length_map]
  have hne2 : pts.map (fun q => q.getD i 0) ≠ [] := by
    intro hc
    exact hne (List.map_eq_nil_iff.mp hc)
  have := mean_min_1d (pts.map (fun q => q.getD i 0)) hne2 (c.getD i 0)
  rw [hlen] at this
  exact this

/-- The total cost regrouped cluster by cluster. -/
theorem cost_eq_by_cluster (vecs : List (List ℚ)) (a : List ℤ)
    (cent : List (List ℚ)) (k : ℕ)
    (hkey : ∀ p ∈ vecs.zip a, ∃ j ∈ List.range k, p.2 = Int.ofNat j) :
    cost vecs a cent = ((List.range k).map (fun j =>
      ((ptsOf vecs a j).map (fun q => sqDist q (cent.getD j []))).sum)).sum := by
  unfold cost
  have hperm := flatMap_filter_perm (fun p => p.2) (List.range k)
    (vecs.zip a) (List.nodup_range k) hkey
  have h1 : ((vecs.zip a).map
      (fun p => sqDist p.1 (cent.getD p.2.toNat []))).sum =
      (((List.range k).flatMap (fun j => (vecs.zip a).filter
        (fun p => p.2 == Int.ofNat j))).map
          (fun p => sqDist p.1 (cent.getD p.2.toNat []))).sum :=
    ((hperm.map _).sum_eq).symm
  rw [h1, List.map_flatMap, List.flatMap_def, List.sum_flatten, List.map_map]
  congr 1
  apply List.map_congr_left
  intro j hj
  unfold ptsOf
  rw [List.map_map]
  show (((vecs.zip a).filter (fun p => p.2 == Int.ofNat j)).map
      (fun p => sqDist p.1 (cent.getD p.2.toNat []))).sum = _
  congr 1
  apply List.map_congr_left
  intro p hp
  have hpj : p.2 = Int.ofNat j := by
    have := List.of_mem_filter hp
    exact beq_iff_eq.mp this
  show sqDist p.1 (cent.getD p.2.toNat []) = sqDist p.1 (cent.getD j [])
  rw [hpj]
  rfl

/-- Centroid update never increases the total cost: non-empty clusters
move to their coordinate-wise mean (which minimizes their contribution),
empty clusters keep their centroid and contribute nothing. -/
theorem cost_update_le (vecs : List (List ℚ)) (k : ℕ) (a : List ℤ)
    (cent : List (List ℚ)) (d : ℕ) (hd : ∀ v ∈ vecs, v.length = d)
    (hkey : ∀ p ∈ vecs.zip a, ∃ j ∈ List.range k, p.2 = Int.ofNat j) :
    cost vecs a (updateCentroids vecs k a cent) ≤ cost vecs a cent := by
  rw [cost_eq_by_cluster vecs a _ k hkey, cost_eq_by_cluster vecs a cent k hkey]
  apply List.sum_le_sum
  intro j hj
  have hjk : j < k := List.mem_range.mp hj
  by_cases hpts : ptsOf vecs a j = []
  · rw [hpts]
    simp
  · have hdpts : ∀ q ∈ ptsOf vecs a j, q.length = d := by
      intro q hq
      unfold ptsOf at hq
      rcases List.mem_map.mp hq with ⟨p, hp, rfl⟩
      exact hd p.1 (List.of_mem_zip (List.mem_of_mem_filter hp)).1
    by_cases hjlen : j < cent.length
    · have hupd : (updateCentroids vecs k a cent).getD j [] =
          calculateCentroid (ptsOf vecs a j) := by
        unfold updateCentroids
        rw [getD_mapIdxFrom _ 0 cent j hjlen [] []]
        simp only [Nat.zero_add]
        rw [if_pos hjk]
        rw [if_neg (fun hc => hpts (List.isEmpty_iff.mp hc))]
      rw [hupd]
      exact sum_sqDist_calculateCentroid_le _ _ d hpts hdpts
    · have h1 : (updateCentroids vecs k a cent).getD j [] = [] :=
        getD_mapIdxFrom_ge _ 0 cent j (by omega) []
      have h2 : cent.getD j [] = [] := List.getD_eq_default _ _ (by omega)
      rw [h1, h2]

/-- Re-running the assignment step never increases the total cost: every
point moves to a centroid at least as close as its current one. -/
theorem cost_assign_le (vecs : List (List ℚ)) (k : ℕ)
    (cent2 : List (List ℚ)) (a : List ℤ) (hlen : a.length = vecs.length)
    (hkey : ∀ p ∈ vecs.zip a, ∃ j ∈ List.range k, p.2 = Int.ofNat j) :
    cost vecs (assignStep vecs k cent2) cent2 ≤ cost vecs a cent2 := by
  unfold cost assignStep
  have hz := List.zip_map' id
    (fun v => (Int.ofNat (bestCluster v k cent2))) vecs
  rw [List.map_id] at hz
  rw [hz, List.map_map]
  have h3 : ((vecs.zip a).map (fun p =>
      sqDist p.1 (cent2.getD (Int.ofNat (bestCluster p.1 k cent2)).toNat []))) =
      vecs.map (fun v =>
        sqDist v (cent2.getD (Int.ofNat (bestCluster v k cent2)).toNat [])) := by
    rw [show ((vecs.zip a).map (fun p =>
        sqDist p.1 (cent2.getD (Int.ofNat (bestCluster p.1 k cent2)).toNat []))) =
        (((vecs.zip a).map Prod.fst).map (fun v =>
          sqDist v (cent2.getD (Int.ofNat (bestCluster v k cent2)).toNat [])))
      from by rw [List.map_map]; rfl]
    rw [List.map_fst_zip _ _ (le_of_eq hlen.symm)]
  have h4 : (vecs.map ((fun p => sqDist p.1 (cent2.getD p.2.toNat [])) ∘
      (fun v => (id v, Int.ofNat (bestCluster v k cent2))))).sum =
      ((vecs.zip a).map (fun p =>
        sqDist p.1 (cent2.getD (Int.ofNat (bestCluster p.1 k cent2)).toNat []))).sum := by
    rw [h3]
    rfl
  rw [h4]
  apply List.sum_le_sum
  intro p hp
  obtain ⟨j, hjr, hpj⟩ := hkey p hp
  have hjk : j < k := List.mem_range.mp hjr
  rw [hpj]
  exact bestCluster_min p.1 cent2 j hjk

end KMeansClustering

open KMeansClustering in
/-- C1 (witness for the amended partition theorem): two points, two
clusters; the emitted clusters partition the ids. -/
theorem C1_cluster_partition_amended_witness :
    (1 ≤ 1) ∧
    ((((cluster [("a", [0]), ("b", [7])] 1 (fun _ => 0)).flatMap
      ClusterOut.items) ~ ["a", "b"]) ∧
    (∀ c ∈ cluster [("a", [0]), ("b", [7])] 1 (fun _ => 0), c.items ≠ []) ∧
    (cluster [("a", [0]), ("b", [7])] 1 (fun _ => 0)).length ≤ 1) :=
  ⟨by norm_num,
    C1_cluster_partition_amended [("a", [0]), ("b", [7])] 1 (fun _ => 0)
      (by norm_num)⟩

open KMeansClustering in
/-- C3: within one iteration of `KMeansClustering.cluster` — for any
centroid list the iteration may currently hold, with every input vector of
one common dimension and `k >= 1` — assigning points to their nearest
centroids, updating the centroids (leaving zero-point centroids
unchanged), and re-running the assignment step never increases the total
within-cluster squared Euclidean distance.  Quantifying over `cent` covers
every one of the up-to-100 iterations, so the cost sequence of the loop is
monotonically non-increasing. -/
theorem C3_cost_monotone (vecs : List (List ℚ)) (d k : ℕ)
    (cent : List (List ℚ)) (hk : 1 ≤ k) (hd : ∀ v ∈ vecs, v.length = d) :
    cost vecs
      (assignStep vecs k (updateCentroids vecs k (assignStep vecs k cent) cent))
      (updateCentroids vecs k (assignStep vecs k cent) cent) ≤
    cost vecs (assignStep vecs k cent) cent := by
  set a := assignStep vecs k cent with ha
  set cent' := updateCentroids vecs k a cent with hc'
  have hlen : a.length = vecs.length := by
    rw [ha]
    unfold assignStep
    simp
  have hkey : ∀ p ∈ vecs.zip a, ∃ j ∈ List.range k, p.2 = Int.ofNat j := by
    intro p hp
    have hsnd := (List.of_mem_zip hp).2
    rw [ha] at hsnd
    unfold assignStep at hsnd
    rcases List.mem_map.mp hsnd with ⟨v, _, hv⟩
    exact ⟨bestCluster v k cent, List.mem_range.mpr
      (bestCluster_lt v cent hk), hv.symm⟩
  calc cost vecs (assignStep vecs k cent') cent' ≤ cost vecs a cent' :=
        cost_assign_le vecs k cent' a hlen hkey
    _ ≤ cost vecs a cent := cost_update_le vecs k a cent d hd hkey

open KMeansClustering in
/-- C3 (witness): a concrete iteration state on one-dimensional data. -/
theorem C3_cost_monotone_witness :
    (1 ≤ 2) ∧ (∀ v ∈ [[(0 : ℚ)], [2], [10]], v.length = 1) ∧
    cost [[(0 : ℚ)], [2], [10]]
      (assignStep [[(0 : ℚ)], [2], [10]] 2
        (updateCentroids [[(0 : ℚ)], [2], [10]] 2
          (assignStep [[(0 : ℚ)], [2], [10]] 2 [[0], [9]]) [[0], [9]]))
      (updateCentroids [[(0 : ℚ)], [2], [10]] 2
        (assignStep [[(0 : ℚ)], [2], [10]] 2 [[0], [9]]) [[0], [9]]) ≤
    cost [[(0 : ℚ)], [2], [10]]
      (assignStep [[(0 : ℚ)], [2], [10]] 2 [[0], [9]]) [[0], [9]] :=
  ⟨by norm_num, by norm_num,
    C3_cost_monotone [[(0 : ℚ)], [2], [10]] 1 2 [[0], [9]] (by norm_num)
      (by norm_num)⟩

/-! ## Claims about the rule-based chunker -/

set_option maxRecDepth 10000 in
/-- C4 (evaluation at the failing input): a single paragraph of 1001
characters makes `localChunkText` return a non-empty chunk list whose
first chunk has empty content.  The accumulation loop pushes
`currentChunkContent.trim()` — still the empty string — because
`0 + 1001 > 1000` already holds at the first paragraph; only the final
flush is guarded against emptiness. -/
theorem C4_empty_chunk_eval :
    (localChunkText (String.mk (List.replicate 1001 'a'))).map
      TextChunk.content =
      ["", String.mk (List.replicate 1001 'a')] ∧
    localChunkText (String.mk (List.replicate 1001 'a')) ≠ [] := by
  have h : (localChunkText (String.mk (List.replicate 1001 'a'))).map
      TextChunk.content = ["", String.mk (List.replicate 1001 'a')] := by
    decide
  refine ⟨h, ?_⟩
  intro hc
  rw [hc] at h
  cases h

/-- C6 (evaluation at the failing input): the whitespace-only input
`" "` produces one chunk (with empty content), not zero chunks — the
sentence-splitting fallback fires because `chunks.length === 0` and
`text.length > 0`, and its `|| [text]` default contributes the trimmed
(hence empty) text.  Only the genuinely empty input yields zero chunks. -/
theorem C6_whitespace_eval :
    localChunkText " " = [⟨"Chunk 1", ""⟩] ∧ localChunkText "" = [] := by
  constructor
  · decide
  · decide

/-! ## Association-list and handler lemmas -/

theorem lookup_cons_true {β : Type} {k : String} {p : String × β}
    {l : List (String × β)} (h : (k == p.1) = true) :
    List.lookup k (p :: l) = some p.2 := by
  rcases p with ⟨a, b⟩
  rw [List.lookup_cons, h]

theorem lookup_cons_false {β : Type} {k : String} {p : String × β}
    {l : List (String × β)} (h : (k == p.1) = false) :
    List.lookup k (p :: l) = List.lookup k l := by
  rcases p with ⟨a, b⟩
  rw [List.lookup_cons, h]

theorem lookup_eq_some_of_mem {β : Type} {l : List (String × β)} {k : String}
    {v : β} (hnodup : (l.map Prod.fst).Nodup) (hmem : (k, v) ∈ l) :
    List.lookup k l = some v := by
  induction l with
  | nil => cases hmem
  | cons p l ih =>
    rw [List.map_cons, List.nodup_cons] at hnodup
    rcases List.mem_cons.mp hmem with heq | hmem'
    · rw [← heq]
      exact lookup_cons_true (by simp [← heq])
    · have hk : p.1 ≠ k := by
        intro hc
        exact hnodup.1 (hc ▸ List.mem_map_of_mem Prod.fst hmem')
      have hbf : (k == p.1) = false := by
        simp only [beq_eq_false_iff_ne, ne_eq]
        exact fun hc => hk hc.symm
      rw [lookup_cons_false hbf]
      exact ih hnodup.2 hmem'

theorem mem_of_lookup_eq_some {β : Type} {l : List (String × β)} {k : String}
    {v : β} (h : List.lookup k l = some v) : (k, v) ∈ l := by
  induction l with
  | nil => cases h
  | cons p l ih =>
    cases hb : (k == p.1) with
    | true =>
      rw [lookup_cons_true hb] at h
      injection h with h
      have hk : k = p.1 := by simpa using hb
      have hp : p = (k, v) := Prod.ext hk.symm h
      rw [hp]
      exact List.mem_cons_self _ _
    | false =>
      rw [lookup_cons_false hb] at h
      exact List.mem_cons_of_mem p (ih h)

/-- Looking up after `updateChunkRec`: the targeted key is mapped, all
other keys are untouched. -/
theorem lookup_updateChunkRec (chunks : List (String × Chunk)) (cid : String)
    (f : Chunk → Chunk) (id' : String) :
    List.lookup id' (updateChunkRec chunks cid f) =
      if id' = cid then (List.lookup id' chunks).map f
      else List.lookup id' chunks := by
  induction chunks with
  | nil => by_cases h : id' = cid <;> simp [updateChunkRec, h]
  | cons p l ih =>
    by_cases hb : (id' == p.1) = true
    · have hid : id' = p.1 := by simpa using hb
      by_cases hp : p.1 = cid
      · rw [if_pos (hid.trans hp)]
        rw [show updateChunkRec (p :: l) cid f =
            (p.1, f p.2) :: updateChunkRec l cid f from by
          simp [updateChunkRec, hp]]
        rw [lookup_cons_true (by simpa using hid), lookup_cons_true hb]
        rfl
      · rw [if_neg (fun hc => hp (hid ▸ hc))]
        rw [show updateChunkRec (p :: l) cid f =
            p :: updateChunkRec l cid f from by
          simp [updateChunkRec, hp]]
        rw [lookup_cons_true hb, lookup_cons_true hb]
    · have hbf : (id' == p.1) = false := eq_false_of_ne_true hb
      have hhead : ∃ q : String × Chunk, q.1 = p.1 ∧
          updateChunkRec (p :: l) cid f = q :: updateChunkRec l cid f := by
        by_cases hp : p.1 = cid
        · exact ⟨(p.1, f p.2), rfl, by simp [updateChunkRec, hp]⟩
        · exact ⟨p, rfl, by simp [updateChunkRec, hp]⟩
      obtain ⟨q, hq1, hq2⟩ := hhead
      rw [hq2, lookup_cons_false (by rw [hq1]; exact hbf),
        lookup_cons_false hbf]
      exact ih

/-! ## Claims about the chunk handlers -/

/-- C7: on the edit path with changed non-empty content, if the embedding
provider call fails, the handler returns an error and the state — chunk
rows, vector-store collections, everything — is exactly the input state:
the provider is called before the vector-store upsert and before
`storage.updateChunk`, so nothing has been written yet. -/
theorem C7_edit_atomic (s : SysState) (cid : String) (newContent : String)
    (e : String) (chunk : Chunk)
    (hchunk : List.lookup cid s.chunks = some chunk)
    (hne : newContent ≠ "") (hchanged : newContent ≠ chunk.content) :
    (patchChunkHandler s cid newContent (.error e)).2 = s ∧
    ∃ msg, (patchChunkHandler s cid newContent (.error e)).1 =
      .error msg := by
  unfold patchChunkHandler
  rw [hchunk]
  dsimp only
  rw [if_pos ⟨hne, hchanged⟩]
  rcases hbook : getBookFromChunk s cid with _ | book
  · exact ⟨rfl, "Book not found for this chunk", rfl⟩
  · exact ⟨rfl, e, rfl⟩

/-- C7 (witness): a one-chunk system where the provider fails. -/
theorem C7_edit_atomic_witness :
    (patchChunkHandler
      ⟨[("c1", ⟨"c1", "s1", 0, "old", none, 1, false⟩)],
       [("s1", ⟨"s1", "ch1"⟩)], [("ch1", ⟨"ch1", "b1"⟩)],
       [("b1", ⟨"b1", "local"⟩)], []⟩
      "c1" "new" (.error "provider down")).2 =
      ⟨[("c1", ⟨"c1", "s1", 0, "old", none, 1, false⟩)],
       [("s1", ⟨"s1", "ch1"⟩)], [("ch1", ⟨"ch1", "b1"⟩)],
       [("b1", ⟨"b1", "local"⟩)], []⟩ ∧
    ∃ msg, (patchChunkHandler
      ⟨[("c1", ⟨"c1", "s1", 0, "old", none, 1, false⟩)],
       [("s1", ⟨"s1", "ch1"⟩)], [("ch1", ⟨"ch1", "b1"⟩)],
       [("b1", ⟨"b1", "local"⟩)], []⟩
      "c1" "new" (.error "provider down")).1 = .error msg :=
  C7_edit_atomic
    ⟨[("c1", ⟨"c1", "s1", 0, "old", none, 1, false⟩)],
     [("s1", ⟨"s1", "ch1"⟩)], [("ch1", ⟨"ch1", "b1"⟩)],
     [("b1", ⟨"b1", "local"⟩)], []⟩
    "c1" "new" "provider down" ⟨"c1", "s1", 0, "old", none, 1, false⟩
    (by decide) (by decide) (by decide)

/-- C8 (evaluation at the failing path): the DELETE handler discards the
boolean `remove` returns.  On a system with one chunk whose vector is
stored in its book's collection, a delete whose underlying ChromaDB
`collection.delete` call fails (`remove` catches the error and returns
`false`) still answers `"Chunk deleted successfully"` — yet the record is
still in the collection and a subsequent search over it returns the
deleted id, contradicting the claimed invariant.  When the external call
succeeds the record is gone and the same search returns nothing. -/
theorem C8_delete_consistency :
    (deleteChunkHandler
      ⟨[("c1", ⟨"c1", "s1", 0, "txt", none, 1, true⟩)],
       [("s1", ⟨"s1", "ch1"⟩)], [("ch1", ⟨"ch1", "b1"⟩)],
       [("b1", ⟨"b1", "local"⟩)],
       [("collection_local", [⟨"c1", [1], some "txt", "txt"⟩])]⟩
      "c1" false).1 = .ok "Chunk deleted successfully" ∧
    chromaRecords (deleteChunkHandler
      ⟨[("c1", ⟨"c1", "s1", 0, "txt", none, 1, true⟩)],
       [("s1", ⟨"s1", "ch1"⟩)], [("ch1", ⟨"ch1", "b1"⟩)],
       [("b1", ⟨"b1", "local"⟩)],
       [("collection_local", [⟨"c1", [1], some "txt", "txt"⟩])]⟩
      "c1" false).2.vectorStore "collection_local" =
      [⟨"c1", [1], some "txt", "txt"⟩] ∧
    (ChromaVectorStore.search (deleteChunkHandler
      ⟨[("c1", ⟨"c1", "s1", 0, "txt", none, 1, true⟩)],
       [("s1", ⟨"s1", "ch1"⟩)], [("ch1", ⟨"ch1", "b1"⟩)],
       [("b1", ⟨"b1", "local"⟩)],
       [("collection_local", [⟨"c1", [1], some "txt", "txt"⟩])]⟩
      "c1" false).2.vectorStore "collection_local" [1] 5).map
      SearchResult.id = ["c1"] ∧
    (deleteChunkHandler
      ⟨[("c1", ⟨"c1", "s1", 0, "txt", none, 1, true⟩)],
       [("s1", ⟨"s1", "ch1"⟩)], [("ch1", ⟨"ch1", "b1"⟩)],
       [("b1", ⟨"b1", "local"⟩)],
       [("collection_local", [⟨"c1", [1], some "txt", "txt"⟩])]⟩
      "c1" true).1 = .ok "Chunk deleted successfully" ∧
    ChromaVectorStore.search (deleteChunkHandler
      ⟨[("c1", ⟨"c1", "s1", 0, "txt", none, 1, true⟩)],
       [("s1", ⟨"s1", "ch1"⟩)], [("ch1", ⟨"ch1", "b1"⟩)],
       [("b1", ⟨"b1", "local"⟩)],
       [("collection_local", [⟨"c1", [1], some "txt", "txt"⟩])]⟩
      "c1" true).2.vectorStore "collection_local" [1] 5 = [] := by
  refine ⟨?_, ?_, ?_, ?_, ?_⟩
  · rfl
  · rfl
  · rfl
  · rfl
  · rfl

/-! ## Reorder lemmas -/

theorem insertByOrder_perm (x : Chunk) (l : List Chunk) :
    insertByOrder x l ~ x :: l := by
  induction l with
  | nil => rfl
  | cons y ys ih =>
    unfold insertByOrder
    by_cases h : x.order < y.order
    · rw [if_pos h]
    · rw [if_neg h]
      calc y :: insertByOrder x ys ~ y :: x :: ys := ih.cons y
        _ ~ x :: y :: ys := List.Perm.swap x y ys

theorem getChunksBySectionId_perm (chunks : List (String × Chunk))
    (sec : String) :
    getChunksBySectionId chunks sec ~
      (chunks.map Prod.snd).filter (fun c => c.sectionId == sec) := by
  unfold getChunksBySectionId
  have key : ∀ (l acc : List Chunk),
      (l.foldl (fun acc x => insertByOrder x acc) acc) ~ acc ++ l := by
    intro l
    induction l with
    | nil => intro acc; simp
    | cons x xs ih =>
      intro acc
      calc (xs.foldl (fun acc x => insertByOrder x acc) (insertByOrder x acc))
          ~ insertByOrder x acc ++ xs := ih _
        _ ~ (x :: acc) ++ xs := (insertByOrder_perm x acc).append_right xs
        _ ~ acc ++ x :: xs := List.perm_middle.symm
  simpa using key ((chunks.map Prod.snd).filter (fun c => c.sectionId == sec)) []

/-- Values of a well-keyed store have pairwise distinct ids, and so do the
sorted siblings of a section. -/
theorem siblings_ids_nodup (chunks : List (String × Chunk)) (sec : String)
    (hkeys : ∀ p ∈ chunks, p.2.id = p.1)
    (hnodup : (chunks.map Prod.fst).Nodup) :
    ((getChunksBySectionId chunks sec).map Chunk.id).Nodup := by
  have h1 : (chunks.map Prod.snd).map Chunk.id = chunks.map Prod.fst := by
    rw [List.map_map]
    exact List.map_congr_left (fun p hp => hkeys p hp)
  have h2 : ((chunks.map Prod.snd).map Chunk.id).Nodup := by
    rw [h1]
    exact hnodup
  have h3 : (((chunks.map Prod.snd).filter
      (fun c => c.sectionId == sec)).map Chunk.id).Nodup :=
    List.Nodup.sublist ((List.filter_sublist _).map Chunk.id) h2
  exact (((getChunksBySectionId_perm chunks sec).map Chunk.id).nodup_iff).mpr h3

/-- A sibling is a stored value, under its own id as key. -/
theorem sibling_lookup (chunks : List (String × Chunk)) (sec : String)
    (hkeys : ∀ p ∈ chunks, p.2.id = p.1)
    (hnodup : (chunks.map Prod.fst).Nodup)
    {c : Chunk} (hc : c ∈ getChunksBySectionId chunks sec) :
    List.lookup c.id chunks = some c := by
  have h1 : c ∈ (chunks.map Prod.snd).filter (fun x => x.sectionId == sec) :=
    (getChunksBySectionId_perm chunks sec).mem_iff.mp hc
  have h2 : c ∈ chunks.map Prod.snd := List.mem_of_mem_filter h1
  rcases List.mem_map.mp h2 with ⟨p, hp, hpc⟩
  have hkey : p.1 = c.id := by rw [← hkeys p hp, hpc]
  have : (c.id, c) ∈ chunks := by
    rw [← hkey, ← hpc]
    exact hp
  exact lookup_eq_some_of_mem hnodup this

/-! ## Claim about the reorder path -/

/-- C9: once the target chunk is located among its section's siblings
(sorted by `order`), reordering the first chunk up or the last chunk down
succeeds and returns the store *unchanged* (every chunk's `order` and all
other state untouched), while a non-boundary reorder succeeds and swaps
exactly the `order` values of the target and its immediate sibling in the
requested direction, leaving every other chunk's record untouched. -/
theorem C9_reorder_boundary_noop (chunks : List (String × Chunk))
    (cid : String) (chunk : Chunk)
    (hkeys : ∀ p ∈ chunks, p.2.id = p.1)
    (hnodup : (chunks.map Prod.fst).Nodup)
    (hchunk : List.lookup cid chunks = some chunk)
    (siblings : List Chunk) (ci : ℕ)
    (hsib : siblings = getChunksBySectionId chunks chunk.sectionId)
    (hci : ci = siblings.findIdx (fun c => c.id == cid)) :
    (ci = 0 → swapChunkOrder chunks cid .up = .ok chunks) ∧
    (ci = siblings.length - 1 →
      swapChunkOrder chunks cid .down = .ok chunks) ∧
    (∀ dir : Direction, ∀ other : Chunk,
      ((dir = .up ∧ 1 ≤ ci ∧ other = siblings.getD (ci - 1) chunk) ∨
       (dir = .down ∧ ci + 1 < siblings.length ∧
         other = siblings.getD (ci + 1) chunk)) →
      other.id ≠ cid ∧
      ∃ chunks', swapChunkOrder chunks cid dir = .ok chunks' ∧
        List.lookup cid chunks' = some { chunk with order := other.order } ∧
        List.lookup other.id chunks' =
          some { other with order := chunk.order } ∧
        ∀ id', id' ≠ cid → id' ≠ other.id →
          List.lookup id' chunks' = List.lookup id' chunks) := by
  subst hci
  subst hsib
  set siblings := getChunksBySectionId chunks chunk.sectionId with hsib
  set ci := siblings.findIdx (fun c => c.id == cid) with hci
  have hcmem : (cid, chunk) ∈ chunks := mem_of_lookup_eq_some hchunk
  have hcid : chunk.id = cid := hkeys (cid, chunk) hcmem
  have hsibmem : chunk ∈ siblings := by
    rw [hsib]
    apply (getChunksBySectionId_perm chunks chunk.sectionId).mem_iff.mpr
    apply List.mem_filter.mpr
    exact ⟨List.mem_map_of_mem Prod.snd hcmem, by simp⟩
  have hlt : ci < siblings.length :=
    List.findIdx_lt_length_of_exists ⟨chunk, hsibmem, by simp [hcid]⟩
  have hids : (siblings.map Chunk.id).Nodup := by
    rw [hsib]
    exact siblings_ids_nodup chunks chunk.sectionId hkeys hnodup
  have hat : (siblings.get ⟨ci, hlt⟩).id = cid := by
    have h := @List.findIdx_getElem _ (fun c => c.id == cid) siblings hlt
    simpa using h
  have hdistinct : ∀ i, ∀ hi : i < siblings.length, i ≠ ci →
      (siblings.get ⟨i, hi⟩).id ≠ cid := by
    intro i hi hne hcontra
    have hi2 : i < (siblings.map Chunk.id).length := by simpa using hi
    have hc2 : ci < (siblings.map Chunk.id).length := by simpa using hlt
    have h1 : (siblings.map Chunk.id)[i] = (siblings.map Chunk.id)[ci] := by
      simp only [List.getElem_map]
      rw [show siblings[i] = siblings.get ⟨i, hi⟩ from rfl, hcontra,
        show siblings[ci] = siblings.get ⟨ci, hlt⟩ from rfl, hat]
    exact hne ((hids.getElem_inj_iff).mp h1)
  refine ⟨?_, ?_, ?_⟩
  · -- first chunk, direction up: silent no-op
    intro h0
    unfold swapChunkOrder
    rw [hchunk]
    dsimp only
    rw [← hsib, ← hci]
    rw [if_neg (by omega)]
    rw [if_pos (Or.inl (by rw [h0]; norm_num))]
  · -- last chunk, direction down: silent no-op
    intro hlast
    unfold swapChunkOrder
    rw [hchunk]
    dsimp only
    rw [← hsib, ← hci]
    rw [if_neg (by omega)]
    rw [if_pos (Or.inr (by rw [hlast]; omega))]
  · -- non-boundary: swap with the immediate sibling
    intro dir other hcase
    have hother : ∃ oi : ℕ, ∃ hoi : oi < siblings.length, oi ≠ ci ∧
        other = siblings.get ⟨oi, hoi⟩ ∧
        swapChunkOrder chunks cid dir = .ok (updateChunkRec
          (updateChunkRec chunks cid
            (fun c => { c with order := other.order }))
          other.id (fun c => { c with order := chunk.order })) := by
      rcases hcase with ⟨hd, hcile, ho⟩ | ⟨hd, hcile, ho⟩
      · refine ⟨ci - 1, by omega, by omega, ?_, ?_⟩
        · rw [ho]
          exact List.getD_eq_getElem siblings chunk (by omega)
        · rw [hd]
          unfold swapChunkOrder
          rw [hchunk]
          dsimp only
          rw [← hsib, ← hci]
          rw [if_neg (by omega)]
          rw [if_neg (by omega)]
          have htoNat : ((ci : ℤ) - 1).toNat = ci - 1 := by omega
          rw [htoNat, ← ho]
      · refine ⟨ci + 1, by omega, by omega, ?_, ?_⟩
        · rw [ho]
          exact List.getD_eq_getElem siblings chunk (by omega)
        · rw [hd]
          unfold swapChunkOrder
          rw [hchunk]
          dsimp only
          rw [← hsib, ← hci]
          rw [if_neg (by omega)]
          rw [if_neg (by omega)]
          have htoNat : ((ci : ℤ) + 1).toNat = ci + 1 := by omega
          rw [htoNat, ← ho]
    obtain ⟨oi, hoi, hone, hoe, heq⟩ := hother
    have hoid : other.id ≠ cid := by
      rw [hoe]
      exact hdistinct oi hoi hone
    have holk : List.lookup other.id chunks = some other := by
      apply sibling_lookup chunks chunk.sectionId hkeys hnodup
      rw [hoe]
      exact List.get_mem _ _ _
    refine ⟨hoid, _, heq, ?_, ?_, ?_⟩
    · rw [lookup_updateChunkRec, if_neg (fun hc => hoid hc.symm),
        lookup_updateChunkRec, if_pos rfl, hchunk]
      rfl
    · rw [lookup_updateChunkRec, if_pos rfl, lookup_updateChunkRec,
        if_neg hoid, holk]
      rfl
    · intro id' h1 h2
      rw [lookup_updateChunkRec, if_neg h2, lookup_updateChunkRec,
        if_neg h1]

/-- C9 (witness): a two-chunk section; moving the first chunk up and the
last chunk down are no-ops, moving the second chunk up swaps the two
`order` values. -/
theorem C9_reorder_boundary_noop_witness :
    (swapChunkOrder
      [("c1", ⟨"c1", "s1", 0, "x", none, 1, true⟩),
       ("c2", ⟨"c2", "s1", 1, "y", none, 1, true⟩)] "c1" .up =
      .ok [("c1", ⟨"c1", "s1", 0, "x", none, 1, true⟩),
       ("c2", ⟨"c2", "s1", 1, "y", none, 1, true⟩)]) ∧
    (swapChunkOrder
      [("c1", ⟨"c1", "s1", 0, "x", none, 1, true⟩),
       ("c2", ⟨"c2", "s1", 1, "y", none, 1, true⟩)] "c2" .down =
      .ok [("c1", ⟨"c1", "s1", 0, "x", none, 1, true⟩),
       ("c2", ⟨"c2", "s1", 1, "y", none, 1, true⟩)]) ∧
    (∃ chunks', swapChunkOrder
      [("c1", ⟨"c1", "s1", 0, "x", none, 1, true⟩),
       ("c2", ⟨"c2", "s1", 1, "y", none, 1, true⟩)] "c2" .up =
        .ok chunks' ∧
      List.lookup "c2" chunks' =
        some ⟨"c2", "s1", 0, "y", none, 1, true⟩ ∧
      List.lookup "c1" chunks' =
        some ⟨"c1", "s1", 1, "x", none, 1, true⟩) := by
  have h1 := C9_reorder_boundary_noop
    [("c1", ⟨"c1", "s1", 0, "x", none, 1, true⟩),
     ("c2", ⟨"c2", "s1", 1, "y", none, 1, true⟩)] "c1"
    ⟨"c1", "s1", 0, "x", none, 1, true⟩ (by decide) (by decide) (by decide)
    _ _ rfl rfl
  have h2 := C9_reorder_boundary_noop
    [("c1", ⟨"c1", "s1", 0, "x", none, 1, true⟩),
     ("c2", ⟨"c2", "s1", 1, "y", none, 1, true⟩)] "c2"
    ⟨"c2", "s1", 1, "y", none, 1, true⟩ (by decide) (by decide) (by decide)
    _ _ rfl rfl
  refine ⟨h1.1 (by decide), h2.2.1 (by decide), ?_⟩
  obtain ⟨-, chunks', hswap, hl1, hl2, -⟩ :=
    h2.2.2 .up ⟨"c1", "s1", 0, "x", none, 1, true⟩
      (Or.inl ⟨rfl, by decide, by decide⟩)
  exact ⟨chunks', hswap, hl1, hl2⟩

end TextSculptor
